import Mathlib

/-!
Verification development for the drafty-ext site-parser subsystem.

The TypeScript parsers operate on the live DOM of third-party draft pages.
We shallowly embed the DOM as a tree of element/text nodes.  Element
geometry (`getBoundingClientRect().top` etc.) and scroll metrics
(`scrollTop`, `scrollHeight`, `clientHeight`) are data carried on each
element, since the browser layout engine is an external input to the code
under verification.  Asynchronous DOM re-reads (after a synthetic scroll
and a settle delay) are modelled by an environment `env : Nat → Node`
giving the document as observed at each successive read point.
-/

/-- Geometry, scroll metrics and attributes of one DOM element, as the
browser would report them.  `className` is the raw `class` attribute
string (CSS class tokens are the words separated by spaces). -/
structure ElemData where
  tag : String
  className : String
  attrs : List (String × String)
  top : Int := 0
  left : Int := 0
  width : Int := 0
  height : Int := 0
  scrollTop : Int := 0
  scrollHeight : Int := 0
  clientHeight : Int := 0
deriving Repr, DecidableEq

/-- A DOM node: an element with data and child nodes, or a text node. -/
inductive Node where
  | text (s : String)
  | elem (data : ElemData) (kids : List Node)
deriving Repr

/-- Child list of a node (text nodes have none). -/
def Node.kidsL : Node → List Node
  | .text _ => []
  | .elem _ cs => cs

/-- Element data of a node, when it is an element. -/
def Node.data? : Node → Option ElemData
  | .text _ => none
  | .elem d _ => some d

/-- Whitespace characters, as `String.prototype.trim` treats them. -/
def isWSChar (ch : Char) : Bool :=
  ch = ' ' || ch = '\t' || ch = '\n' || ch = '\r'

/-- Split a character list into whitespace-separated tokens. -/
def splitTokensAux (acc : List Char) : List Char → List (List Char)
  | [] => if acc.isEmpty then [] else [acc.reverse]
  | ch :: cs =>
      if isWSChar ch then
        if acc.isEmpty then splitTokensAux [] cs
        else acc.reverse :: splitTokensAux [] cs
      else splitTokensAux (ch :: acc) cs

/-- The CSS class tokens of an element (its class attribute split on
whitespace). -/
def classTokens (d : ElemData) : List (List Char) :=
  splitTokensAux [] d.className.toList

/-- Does the element carry CSS class `c`?  (mirrors matching of `.c`). -/
def hasCls (c : String) (d : ElemData) : Bool :=
  (classTokens d).contains c.toList

/-- Is `needle` a contiguous run inside `hay`? -/
def charsContain (needle : List Char) : List Char → Bool
  | [] => needle.isEmpty
  | c :: cs => needle.isPrefixOf (c :: cs) || charsContain needle cs

/-- Substring test on strings, used for `url.includes(...)` and for
CSS attribute selectors of the form `[class*="s"]`. -/
def strContains (s sub : String) : Bool :=
  charsContain sub.toList s.toList

/-- Leading- and trailing-whitespace removal on a character list. -/
def trimChars (l : List Char) : List Char :=
  ((l.dropWhile isWSChar).reverse.dropWhile isWSChar).reverse

/-- `String.prototype.trim`. -/
def jsTrim (s : String) : String :=
  ⟨trimChars s.toList⟩

/-- Attribute lookup, mirroring `getAttribute`. -/
def getAttr (d : ElemData) (a : String) : Option String :=
  (d.attrs.find? (fun p => p.1 == a)).map (fun p => p.2)

mutual

/-- `textContent` of a node: the concatenation of all text descendants. -/
def textContent : Node → String
  | .text s => s
  | .elem _ cs => textContentL cs

/-- `textContent` summed over a list of nodes. -/
def textContentL : List Node → String
  | [] => ""
  | c :: cs => textContent c ++ textContentL cs

end

/-- The class name the extension gives its injected action buttons. -/
def btnCls : String := "drafty-action-btn"

mutual

/-- Clean one node of a clone: `none` when the node is an injected action
button (it gets removed), otherwise the node with buttons removed from
its subtree. -/
def stripBtnsN : Node → Option Node
  | .text s => some (.text s)
  | .elem d cs =>
      if hasCls btnCls d then none else some (.elem d (stripBtnsL cs))

/-- Remove every element with class `btnCls` from a child list; mirrors
`clonedElement.querySelectorAll('.drafty-action-btn')` followed by
`btn.remove()` on each hit. -/
def stripBtnsL : List Node → List Node
  | [] => []
  | x :: cs =>
      match stripBtnsN x with
      | none => stripBtnsL cs
      | some y => y :: stripBtnsL cs

end

/-- Remove every injected action button from a (cloned) subtree. -/
def stripBtns : Node → Node
  | .text s => .text s
  | .elem d cs => .elem d (stripBtnsL cs)

mutual

/-- First element with class `c` inside one node: the node itself when it
matches (path `[]`), else the first match among its descendants. -/
def fmRelN (c : String) : Node → Option (List Nat × Node)
  | .text _ => none
  | .elem d cs =>
      if hasCls c d then some ([], .elem d cs) else fmRel c cs

/-- First element with class `c` among the descendants of a node list, in
pre-order (document order), together with its path: the list of child
indices from the root list down to the node.  This is `querySelector`
for a plain class selector scoped under an element. -/
def fmRel (c : String) : List Node → Option (List Nat × Node)
  | [] => none
  | x :: xs =>
      match fmRelN c x with
      | some (p, n) => some (0 :: p, n)
      | none =>
          match fmRel c xs with
          | none => none
          | some (i :: p, n) => some ((i + 1) :: p, n)
          | some ([], n) => some ([], n)

end

mutual

/-- Navigate a path from a node; the empty path is the node itself. -/
def subAtN : Node → List Nat → Option Node
  | n, [] => some n
  | .text _, _ :: _ => none
  | .elem _ cs, j :: p => subAtIdx cs j p

/-- Navigate into child `j` of a sibling list, then along `p`. -/
def subAtIdx : List Node → Nat → List Nat → Option Node
  | [], _, _ => none
  | x :: _, 0, p => subAtN x p
  | _ :: xs, j + 1, p => subAtIdx xs j p

end

/-- Navigate a path (as produced by `fmRel`) in a node list. -/
def subAtL (l : List Node) : List Nat → Option Node
  | [] => none
  | j :: p => subAtIdx l j p

mutual

/-- Insert `b` inside this node as the sibling directly after the node at
(nonempty) path `p` of its subtree. -/
def insAfterN : Node → List Nat → Node → Node
  | .text s, _, _ => .text s
  | .elem d cs, p, b => .elem d (insAfterL cs p b)

/-- Insert `b` as the sibling directly after the node at path `p`
(mirrors `parent.insertBefore(b, node.nextSibling)`). -/
def insAfterL : List Node → List Nat → Node → List Node
  | l, [], _ => l
  | [], _ :: _, _ => []
  | x :: xs, [0], b => x :: b :: xs
  | x :: xs, 0 :: j :: p, b => insAfterN x (j :: p) b :: xs
  | x :: xs, (j + 1) :: p, b => x :: insAfterL xs (j :: p) b

end

mutual

/-- Append `b` as the last child of the node at path `q` inside a node
list (mirrors `container.appendChild(b)`). -/
def appendIntoL : List Node → List Nat → Node → List Node
  | l, [], _ => l
  | [], _ :: _, _ => []
  | x :: xs, 0 :: p, b => appendIntoN x p b :: xs
  | x :: xs, (j + 1) :: p, b => x :: appendIntoL xs (j :: p) b

/-- Append `b` as the last child of the node at path `q` from a node; the
empty path appends directly into this node. -/
def appendIntoN : Node → List Nat → Node → Node
  | .text s, _, _ => .text s
  | .elem d cs, [], b => .elem d (cs ++ [b])
  | .elem d cs, j :: p, b => .elem d (appendIntoL cs (j :: p) b)

end

mutual

/-- Number of elements with class `c` in a node, the node itself
included when it is a matching element. -/
def cntN (c : String) : Node → Nat
  | .text _ => 0
  | .elem d cs => (if hasCls c d then 1 else 0) + cntL c cs

/-- Number of elements with class `c` in a node list (all depths). -/
def cntL (c : String) : List Node → Nat
  | [] => 0
  | x :: xs => cntN c x + cntL c xs

end

/-! ## Player rows: name extraction and action-button injection

`SleeperPlayerRow` and `ESPNPlayerRow` wrap one row element (`this.root`).
We model the row element as a `Node`; queries of the form
`this.root.querySelector('.c')` are `fmRel c row.kidsL` (first pre-order
strict descendant with the class).  ESPN's `nameElement.closest('.flex')`
may walk above the row element; ancestors of the row are not part of the
row subtree, so we carry an abstract context `ctx : Option Bool`:
`none` means no ancestor of the row has class `flex`; `some hb` means the
nearest such ancestor exists and `hb` tells whether its subtree outside
this row currently contains an action button. -/

/-- Sleeper name selector `.name-wrapper`. -/
def sleeperNameCls : String := "name-wrapper"

/-- ESPN name selector `.playerinfo__playername`. -/
def espnNameCls : String := "playerinfo__playername"

/-- `SleeperPlayerRow.getName`: find `.name-wrapper` under the row, clone
it, remove injected action buttons from the clone, and return the trimmed
text of the clone's first child node (the name text node). -/
def sleeperGetName (row : Node) : String :=
  match fmRel sleeperNameCls row.kidsL with
  | none => ""
  | some (_, nm) =>
      match (stripBtns nm).kidsL.head? with
      | none => ""
      | some n0 => jsTrim (textContent n0)

/-- `ESPNPlayerRow.getName` (current revision): find
`.playerinfo__playername` under the row, clone it, remove injected action
buttons from the clone, and return its trimmed `textContent`. -/
def espnGetName (row : Node) : String :=
  match fmRel espnNameCls row.kidsL with
  | none => ""
  | some (_, nm) => jsTrim (textContent (stripBtns nm))

/-- The element data of the injected action control. -/
def draftyButtonData : ElemData :=
  { tag := "button", className := "drafty-action-btn",
    attrs := [("title", "Get player insights")] }

/-- The logo image placed inside the action control. -/
def draftyImg : Node :=
  .elem { tag := "img", className := "", attrs := [("src", "assets/drafty_logo_d.svg")] } []

/-- The injected action control: a `button.drafty-action-btn` titled
"Get player insights" holding the logo image.  Styles and event listeners
do not affect the DOM tree shape and are omitted. -/
def draftyButton : Node :=
  .elem draftyButtonData [draftyImg]

/-- Is an action button already present under the row
(`this.root.querySelector('.drafty-action-btn')`)? -/
def rowHasBtn (row : Node) : Bool :=
  (fmRel btnCls row.kidsL).isSome

/-- `SleeperPlayerRow.addActionButton`: if a button already exists under
the row, do nothing; otherwise find the name element and insert the
button right after it (`parent.insertBefore(button, nameElement.nextSibling)`). -/
def sleeperAddActionButton (row : Node) : Node :=
  if rowHasBtn row then row
  else
    match fmRel sleeperNameCls row.kidsL with
    | none => row
    | some (p, _) =>
        match row with
        | .text s => .text s
        | .elem d cs => .elem d (insAfterL cs p draftyButton)

/-- All prefixes of a path, shortest first. -/
def prefixesAsc : List Nat → List (List Nat)
  | [] => [[]]
  | j :: p => [] :: (prefixesAsc p).map (fun q => j :: q)

/-- The chain walked by `closest` from the node at path `p` up to the row
element: the node itself, then each ancestor in turn (the row itself is
the empty path). -/
def selfAndAncestors (p : List Nat) : List (List Nat) :=
  (prefixesAsc p).reverse

/-- `nameElement.closest('.flex')` restricted to the row subtree: the
nearest self-or-ancestor (up to and including the row) carrying class
`flex`, as a path. -/
def flexTargetInRow (row : Node) (p : List Nat) : Option (List Nat) :=
  (selfAndAncestors p).find? fun q =>
    match subAtN row q with
    | some (.elem d _) => hasCls "flex" d
    | _ => false

/-- Does the subtree of the node at path `q` in the row contain an action
button among its strict descendants
(`flexContainer.querySelector('.drafty-action-btn')`)? -/
def hasBtnAt (row : Node) (q : List Nat) : Bool :=
  match subAtN row q with
  | some n => (fmRel btnCls n.kidsL).isSome
  | none => false

/-- The fallback branch of `ESPNPlayerRow.addActionButton`: take the name
element's parent; if it does not already contain an action button, insert
the button right after the name element. -/
def espnSiblingInsert (row : Node) (p : List Nat) : Node :=
  if hasBtnAt row p.dropLast then row
  else
    match row with
    | .text s => .text s
    | .elem d cs => .elem d (insAfterL cs p draftyButton)

/-- `ESPNPlayerRow.addActionButton` (current revision): guard on an
existing button under the row; find the name element; prefer appending
into the nearest `.flex` container (which `closest` may find above the
row: the `ctx` side of the match), falling back to a sibling insert next
to the name element.  Returns the updated row together with the updated
above-row context. -/
def espnAddActionButton (row : Node) (ctx : Option Bool) : Node × Option Bool :=
  if rowHasBtn row then (row, ctx)
  else
    match fmRel espnNameCls row.kidsL with
    | none => (row, ctx)
    | some (p, _) =>
        match flexTargetInRow row p with
        | some q =>
            if hasBtnAt row q then (espnSiblingInsert row p, ctx)
            else (appendIntoN row q draftyButton, ctx)
        | none =>
            match ctx with
            | some true => (espnSiblingInsert row p, ctx)
            | some false => (row, some true)
            | none => (espnSiblingInsert row p, ctx)

/-- Append one child at the end of a node (elements only). -/
def appendKid : Node → Node → Node
  | .elem d cs, b => .elem d (cs ++ [b])
  | t, _ => t

/-- A row that already carries an injected action control. -/
def wRowBtn : Node :=
  .elem { tag := "div", className := "row", attrs := [] }
    [.elem { tag := "button", className := "drafty-action-btn", attrs := [] } []]

/-- A fresh Sleeper row fixture. -/
def wRowS : Node :=
  .elem { tag := "div", className := "player-rank-item2", attrs := [] }
    [.elem { tag := "div", className := "name-wrapper", attrs := [] } [.text "Alice"]]

/-- A fresh ESPN row fixture. -/
def wRowE : Node :=
  .elem { tag := "div", className := "player-row", attrs := [] }
    [.elem { tag := "span", className := "playerinfo__playername", attrs := [] } [.text "Bob"]]

/-! ## Document-level queries

`getPlayerRows` and the drafted-roster extraction run selectors against
the whole document.  We enumerate all elements in pre-order (document
order) as `Loc`s carrying: the path from the document root, the 1-based
index among element siblings (for `:nth-child`), the element data and
children, and the ancestor chain (nearest first) — so that `closest` and
selector combinators can look upward. -/

/-- Ancestor entry: an element on the chain above a location. -/
structure AncE where
  path : List Nat
  idx : Nat
  data : ElemData
  kids : List Node
deriving Repr

/-- One element of the document together with its position and ancestry. -/
structure Loc where
  path : List Nat
  idx : Nat
  data : ElemData
  kids : List Node
  anc : List AncE
deriving Repr

mutual

/-- Locations contributed by one node sitting at child position `j`
(element-sibling index `e`) under path `p` with ancestors `anc`. -/
def locsN : Node → List Nat → Nat → Nat → List AncE → List Loc
  | .text _, _, _, _, _ => []
  | .elem d cs, p, j, e, anc =>
      ⟨p ++ [j], e, d, cs, anc⟩ ::
        locsL cs (p ++ [j]) 0 1 (⟨p ++ [j], e, d, cs⟩ :: anc)

/-- Locations of all elements of a sibling list, in document order. -/
def locsL : List Node → List Nat → Nat → Nat → List AncE → List Loc
  | [], _, _, _, _ => []
  | .text _ :: rest, p, j, e, anc => locsL rest p (j + 1) e anc
  | .elem d cs :: rest, p, j, e, anc =>
      locsN (.elem d cs) p j e anc ++ locsL rest p (j + 1) (e + 1) anc

end

/-- Every element of the document (the root element included), in
document order. -/
def docLocs (doc : Node) : List Loc :=
  locsL [doc] [] 0 1 []

/-- A location turned into an ancestor entry for its descendants. -/
def ancSelf (l : Loc) : AncE :=
  ⟨l.path, l.idx, l.data, l.kids⟩

/-- The subtree rooted at a location. -/
def locNode (l : Loc) : Node :=
  .elem l.data l.kids

/-- Every element strictly below a location, in document order, with
full ancestor chains. -/
def locsUnder (l : Loc) : List Loc :=
  locsL l.kids l.path 0 1 (ancSelf l :: l.anc)

/-- Simple CSS selector components. -/
inductive SSel where
  | tag (t : String)
  | cls (c : String)
  | clsSub (s : String)
  | attrPresent (a : String)
  | attrVal (a v : String)
  | nthChild (k : Nat)
deriving Repr, DecidableEq

/-- Does one simple selector match an element with sibling index `e`? -/
def matchS : SSel → ElemData → Nat → Bool
  | .tag t, d, _ => d.tag == t
  | .cls c, d, _ => hasCls c d
  | .clsSub s, d, _ => strContains d.className s
  | .attrPresent a, d, _ => (getAttr d a).isSome
  | .attrVal a v, d, _ => getAttr d a == some v
  | .nthChild k, _, e => e == k

/-- A compound selector (all simple parts must match). -/
def matchC (sels : List SSel) (d : ElemData) (e : Nat) : Bool :=
  sels.all (fun s => matchS s d e)

/-- CSS combinators (descendant and direct child). -/
inductive Comb where
  | desc
  | child
deriving Repr, DecidableEq

/-- A complex selector: the rightmost (target) compound plus the chain of
combinator/compound pairs read from the target leftward. -/
structure CSel where
  target : List SSel
  chain : List (Comb × List SSel)
deriving Repr

/-- Fuel-indexed matcher of a combinator chain against an ancestor list
(the fuel only serves structural termination; it is always sufficient). -/
def matchChainF : Nat → List (Comb × List SSel) → List AncE → Bool
  | 0, _, _ => false
  | _ + 1, [], _ => true
  | _ + 1, (.child, _) :: _, [] => false
  | fuel + 1, (.child, cs) :: rest, a :: anc =>
      matchC cs a.data a.idx && matchChainF fuel rest anc
  | _ + 1, (.desc, _) :: _, [] => false
  | fuel + 1, (.desc, cs) :: rest, a :: anc =>
      (matchC cs a.data a.idx && matchChainF fuel rest anc) ||
        matchChainF fuel ((.desc, cs) :: rest) anc

/-- Does the combinator chain match somewhere up the ancestor list? -/
def matchChain (chain : List (Comb × List SSel)) (anc : List AncE) : Bool :=
  matchChainF (chain.length + anc.length + 1) chain anc

/-- Does a complex selector match at a location? -/
def matchCSel (sel : CSel) (l : Loc) : Bool :=
  matchC sel.target l.data l.idx && matchChain sel.chain l.anc

/-- Selector lists (`'a, b'`) match when any member does. -/
def matchAny (sels : List CSel) (l : Loc) : Bool :=
  sels.any (fun s => matchCSel s l)

/-- `document.querySelectorAll` (document order). -/
def qAll (doc : Node) (sels : List CSel) : List Loc :=
  (docLocs doc).filter (matchAny sels)

/-- `document.querySelector`. -/
def q1 (doc : Node) (sels : List CSel) : Option Loc :=
  (qAll doc sels).head?

/-- `el.querySelectorAll` (matches are scoped to strict descendants, but
combinators may look above `el`, as in the DOM). -/
def qAllUnder (l : Loc) (sels : List CSel) : List Loc :=
  (locsUnder l).filter (matchAny sels)

/-- `el.querySelector`. -/
def q1Under (l : Loc) (sels : List CSel) : Option Loc :=
  (qAllUnder l sels).head?

/-- Rebuild ancestor entries into locations (their own ancestors are the
remaining entries). -/
def ancLocsAux : List AncE → List Loc
  | [] => []
  | a :: rest => ⟨a.path, a.idx, a.data, a.kids, rest⟩ :: ancLocsAux rest

/-- The self-then-ancestors chain of a location, as locations. -/
def ancLocs (l : Loc) : List Loc :=
  l :: ancLocsAux l.anc

/-- `el.closest(sel)` for a compound selector: nearest self-or-ancestor
matching it. -/
def closestLoc (l : Loc) (sels : List SSel) : Option Loc :=
  (ancLocs l).find? (fun a => matchC sels a.data a.idx)

/-- Comparison used by every parser's row sort:
`(a, b) => rectA.top - rectB.top` ascending. -/
def locTopLe (a b : Loc) : Prop :=
  a.data.top ≤ b.data.top

instance : DecidableRel locTopLe := fun a b => Int.decLe a.data.top b.data.top

instance : IsTotal Loc locTopLe := ⟨fun a b => Int.le_total a.data.top b.data.top⟩

instance : IsTrans Loc locTopLe := ⟨fun _ _ _ hab hbc => le_trans hab hbc⟩

/-- Shorthand for a plain class selector. -/
def cselCls (c : String) : CSel :=
  ⟨[.cls c], []⟩

/-- `SleeperParser.getPlayerRows`: query `.draft-rankings`; inside it
collect all `.player-rank-item2` elements; sort them by ascending
`getBoundingClientRect().top`. -/
def sleeperGetPlayerRows (doc : Node) : List Loc :=
  match q1 doc [cselCls "draft-rankings"] with
  | none => []
  | some sec =>
      let rows := qAllUnder sec [cselCls "player-rank-item2"]
      if rows.isEmpty then []
      else List.insertionSort locTopLe rows

/-- The name-bearing elements ESPN's `getPlayerRows` starts from:
`.playerinfo__playername` under `.draft-players`. -/
def espnNameLocs (doc : Node) : List Loc :=
  match q1 doc [cselCls "draft-players"] with
  | none => []
  | some sec => qAllUnder sec [cselCls "playerinfo__playername"]

/-- The row-ancestor strategies ESPN applies to each name element, first
success winning: `closest('[role="row"]')`, `closest('tr')`,
`closest('[class*="row"]')`, `closest('div[class*="row"]')`. -/
def espnRowOf (l : Loc) : Option Loc :=
  match closestLoc l [.attrVal "role" "row"] with
  | some r => some r
  | none =>
      match closestLoc l [.tag "tr"] with
      | some r => some r
      | none =>
          match closestLoc l [.clsSub "row"] with
          | some r => some r
          | none => closestLoc l [.tag "div", .clsSub "row"]

/-- `ESPNParser.getPlayerRows` (current revision): find the name
elements, walk each up to its recognized row ancestor, and sort the
collected rows by ascending top; there is no de-duplication step. -/
def espnGetPlayerRows (doc : Node) : List Loc :=
  match q1 doc [cselCls "draft-players"] with
  | none => []
  | some sec =>
      let names := qAllUnder sec [cselCls "playerinfo__playername"]
      if names.isEmpty then []
      else List.insertionSort locTopLe (names.filterMap espnRowOf)

/-- `YahooParser.getPlayerRows`: `tr.ys-player` rows under
`.player-listing-table`, sorted by ascending top. -/
def yahooGetPlayerRows (doc : Node) : List Loc :=
  match q1 doc [cselCls "player-listing-table"] with
  | none => []
  | some sec =>
      let rows := qAllUnder sec [⟨[.tag "tr", .cls "ys-player"], []⟩]
      if rows.isEmpty then []
      else List.insertionSort locTopLe rows

/-- Yahoo's name selector `td.Ta-start > span:nth-child(3)`. -/
def yahooNameSel : CSel :=
  ⟨[.tag "span", .nthChild 3], [(.child, [.tag "td", .cls "Ta-start"])]⟩

/-- `YahooPlayerRow.getName`: find the name cell, clone it, strip action
buttons, return trimmed text. -/
def yahooGetName (row : Loc) : String :=
  match q1Under row [yahooNameSel] with
  | none => ""
  | some nm => jsTrim (textContent (stripBtns (locNode nm)))

/-- `getCurrentPlayerNames` (Sleeper): trimmed, non-empty names of the
current rows, in row order. -/
def sleeperCurrentNames (doc : Node) : List String :=
  ((sleeperGetPlayerRows doc).map (fun l => jsTrim (sleeperGetName (locNode l)))).filter
    (fun s => s != "")

/-- `getCurrentPlayerNames` (ESPN). -/
def espnCurrentNames (doc : Node) : List String :=
  ((espnGetPlayerRows doc).map (fun l => jsTrim (espnGetName (locNode l)))).filter
    (fun s => s != "")

/-- `getCurrentPlayerNames` (Yahoo). -/
def yahooCurrentNames (doc : Node) : List String :=
  ((yahooGetPlayerRows doc).map (fun l => jsTrim (yahooGetName l))).filter
    (fun s => s != "")

/-- The row elements Sleeper's `getPlayerRows` collects before sorting. -/
def sleeperRowLocs (doc : Node) : List Loc :=
  match q1 doc [cselCls "draft-rankings"] with
  | none => []
  | some sec => qAllUnder sec [cselCls "player-rank-item2"]

/-- The ESPN fixture refuting the de-duplication clause of C1: one row
element containing two name elements. -/
def c1ExDoc : Node :=
  .elem { tag := "html", className := "root", attrs := [] }
    [.elem { tag := "div", className := "draft-players", attrs := [] }
      [.elem { tag := "div", className := "player-row", attrs := [], top := 10 }
        [.elem { tag := "span", className := "playerinfo__playername", attrs := [] } [.text "Alice"],
         .elem { tag := "span", className := "playerinfo__playername", attrs := [] } [.text "Bob"]]]]

/-! ## Collecting available names

`getAvailableNames(requiredCount)` repeatedly reads the currently
rendered names, merges new unique ones into an accumulator, scrolls a
little and waits for the page to settle, up to a fixed attempt ceiling.
Each settle point re-reads the live DOM, which the page may have changed;
iteration `i`'s read observes `env i`. -/

/-- One merge step of the collection loop:
`names.forEach(n => { if (!acc.includes(n)) acc.push(n) })`. -/
def mergeNames (acc l : List String) : List String :=
  l.foldl (fun a n => if a.contains n then a else a ++ [n]) acc

/-- The concatenation of reads `t, t+1, …, t+m-1`. -/
def streamFrom (read : Nat → List String) (t m : Nat) : List String :=
  ((List.range m).map (fun i => read (t + i))).flatten

/-- The attempt ceiling (`maxAttempts = 100`). -/
def maxAttempts : Nat := 100

/-- The collection loop shared by all three parsers, with its fuel
`maxAttempts - attempts`; returns the accumulator and the number of
read iterations executed. -/
def collectLoop (read : Nat → List String) (required : Nat) :
    Nat → Nat → List String → List String × Nat
  | 0, _, acc => (acc, 0)
  | fuel + 1, t, acc =>
      if acc.length < required then
        let acc' := mergeNames acc (read t)
        if required ≤ acc'.length then (acc', 1)
        else
          let r := collectLoop read required fuel (t + 1) acc'
          (r.1, r.2 + 1)
      else (acc, 0)

/-- The per-iteration read of Sleeper's loop. -/
def sleeperReads (env : Nat → Node) : Nat → List String :=
  fun i => sleeperCurrentNames (env i)

/-- The per-iteration read of ESPN's loop. -/
def espnReads (env : Nat → Node) : Nat → List String :=
  fun i => espnCurrentNames (env i)

/-- The per-iteration read of Yahoo's loop (reads start after the
scroll-to-top and settle delay, hence the shifted index). -/
def yahooReads (env : Nat → Node) : Nat → List String :=
  fun i => yahooCurrentNames (env (i + 1))

/-- `SleeperParser.getAvailableNames`: scroll to top, settle, run the
collection loop, scroll back up, and return the first `requiredCount`
collected names.  The scroll gestures act on the page and are reflected
in `env`. -/
def sleeperGetAvailableNamesRun (env : Nat → Node) (k : Nat) : List String × Nat :=
  let r := collectLoop (sleeperReads env) k maxAttempts 0 []
  (r.1.take k, r.2)

/-- The names `SleeperParser.getAvailableNames` returns. -/
def sleeperGetAvailableNames (env : Nat → Node) (k : Nat) : List String :=
  (sleeperGetAvailableNamesRun env k).1

/-- `ESPNParser.getAvailableNames`: normalize the view, scroll to top,
settle, loop, scroll back, return the first `requiredCount` names. -/
def espnGetAvailableNamesRun (env : Nat → Node) (k : Nat) : List String × Nat :=
  let r := collectLoop (espnReads env) k maxAttempts 0 []
  (r.1.take k, r.2)

/-- The names `ESPNParser.getAvailableNames` returns. -/
def espnGetAvailableNames (env : Nat → Node) (k : Nat) : List String :=
  (espnGetAvailableNamesRun env k).1

/-- `YahooParser.getAvailableNames`: if the player table is missing,
return nothing; if it is not scrollable, return all currently visible
names as they stand; otherwise scroll to top and run the collection
loop, truncating to `requiredCount`. -/
def yahooGetAvailableNamesRun (env : Nat → Node) (k : Nat) : List String × Nat :=
  match q1 (env 0) [cselCls "player-listing-table"] with
  | none => ([], 0)
  | some table =>
      if table.data.clientHeight < table.data.scrollHeight then
        let r := collectLoop (yahooReads env) k maxAttempts 0 []
        (r.1.take k, r.2)
      else (yahooCurrentNames (env 0), 0)

/-- The names `YahooParser.getAvailableNames` returns. -/
def yahooGetAvailableNames (env : Nat → Node) (k : Nat) : List String :=
  (yahooGetAvailableNamesRun env k).1

/-- Index of the first occurrence of a name in an observation stream. -/
def firstIdx (l : List String) (a : String) : Nat :=
  match l with
  | [] => 0
  | x :: xs => if x = a then 0 else firstIdx xs a + 1

/-- `isScrollable` of Yahoo's available-players table:
`table && table.scrollHeight > table.clientHeight`. -/
def yahooIsScrollable (doc : Node) : Bool :=
  match q1 doc [cselCls "player-listing-table"] with
  | none => false
  | some table => decide (table.data.clientHeight < table.data.scrollHeight)

def tdY (cs : List Node) : Node :=
  .elem { tag := "td", className := "Ta-start", attrs := [] } cs

def spanY (cls : String) (cs : List Node) : Node :=
  .elem { tag := "span", className := cls, attrs := [] } cs

def yahooRow (t : Int) (nm : String) : Node :=
  .elem { tag := "tr", className := "ys-player", attrs := [], top := t }
    [tdY [spanY "a" [], spanY "b" [], spanY "nm" [.text nm]]]

def yahooTable (sh ch : Int) (rows : List Node) : Node :=
  .elem { tag := "table", className := "player-listing-table", attrs := [], scrollHeight := sh, clientHeight := ch } rows

def yahooDoc : Node :=
  .elem { tag := "html", className := "page", attrs := [] }
    [yahooTable 10 10 [yahooRow 10 " A ", yahooRow 20 "B"]]

def yahooScrollDoc : Node :=
  .elem { tag := "html", className := "page", attrs := [] }
    [yahooTable 30 10 [yahooRow 10 "A", yahooRow 20 "B"]]

def yahooDupDoc : Node :=
  .elem { tag := "html", className := "page", attrs := [] }
    [yahooTable 10 10 [yahooRow 10 "A", yahooRow 20 "A"]]

/-! ## Collecting drafted names

`getDraftedNames()` reads the drafted panel; if the panel is scrollable
it runs a scroll-and-read loop that stops at the first iteration whose
post-scroll metrics show the bottom reached or an unchanged scroll
offset.  Iteration `i` reads names from `env (2*i+1)` and its
post-scroll metrics from `env (2*i+2)` (`env 0` is the entry state). -/

/-- The node at a location path in a document. -/
def nodeAt (doc : Node) (p : List Nat) : Option Node :=
  subAtL [doc] p

/-- The live `scrollTop`, `scrollHeight`, `clientHeight` of the element
at path `p` at time `t`. -/
def scrollMetrics (env : Nat → Node) (p : List Nat) (t : Nat) : Int × Int × Int :=
  match nodeAt (env t) p with
  | some (.elem d _) => (d.scrollTop, d.scrollHeight, d.clientHeight)
  | _ => (0, 0, 0)

/-- The drafted loop's exit test after the in-loop scroll:
`currentScrollTop + currentClientHeight >= currentScrollHeight ||
currentScrollTop === previousScrollTop`. -/
def stallB (m : Int × Int × Int) (prevTop : Int) : Bool :=
  decide (m.2.1 ≤ m.1 + m.2.2) || decide (m.1 = prevTop)

/-- The scroll-and-read loop of `getDraftedNames`, common to the ESPN
and Yahoo parsers up to the element type and merge step; returns the
accumulator and the number of read iterations executed. -/
def draftedLoop {α : Type} (read : Nat → List α) (mets : Nat → Int × Int × Int)
    (merge : List α → List α → List α) :
    Nat → Nat → Int → List α → List α × Nat
  | 0, _, _, acc => (acc, 0)
  | fuel + 1, i, prevTop, acc =>
      let acc' := merge acc (read i)
      if stallB (mets i) prevTop then (acc', 1)
      else
        let r := draftedLoop read mets merge fuel (i + 1) (mets i).1 acc'
        (r.1, r.2 + 1)

/-- The `previousScrollTop` value the loop holds entering iteration `i`
(`-1` initially, then the previous iteration's post-scroll offset). -/
def prevTopSeq (mets : Nat → Int × Int × Int) : Nat → Int
  | 0 => -1
  | i + 1 => (mets i).1

/-- Does the loop's exit test fire at iteration `i`? -/
def dStall (mets : Nat → Int × Int × Int) (i : Nat) : Bool :=
  stallB (mets i) (prevTopSeq mets i)

/-- The accumulator after the first `n` read-and-merge steps. -/
def dAccum {α : Type} (read : Nat → List α) (merge : List α → List α → List α) :
    Nat → List α
  | 0 => []
  | n + 1 => merge (dAccum read merge n) (read n)

/-- `ESPNParser.findDraftedRosterSection`: `.roster, .roster-module`,
then `closest('.draft-column')`, then `.inner-column` inside it. -/
def espnFindRoster (doc : Node) : Option Loc :=
  match q1 doc [cselCls "roster", cselCls "roster-module"] with
  | none => none
  | some rosterSection =>
      match closestLoc rosterSection [.cls "draft-column"] with
      | none => none
      | some draftColumn => q1Under draftColumn [cselCls "inner-column"]

/-- ESPN's drafted cell selector
`div[class*="table--cell player-column"][title]`. -/
def espnDraftedCellSel : CSel :=
  ⟨[.tag "div", .clsSub "table--cell player-column", .attrPresent "title"], []⟩

/-- `ESPNParser.getCurrentDraftedNames`: trimmed non-empty `title`
attributes of the drafted cells under the roster section. -/
def espnCurrentDraftedNames (doc : Node) : List String :=
  match espnFindRoster doc with
  | none => []
  | some sec =>
      (qAllUnder sec [espnDraftedCellSel]).filterMap (fun l =>
        match getAttr l.data "title" with
        | none => none
        | some title => if jsTrim title != "" then some (jsTrim title) else none)

/-- One iteration's name read in ESPN's drafted loop. -/
def espnDraftedReads (env : Nat → Node) : Nat → List String :=
  fun i => espnCurrentDraftedNames (env (2 * i + 1))

/-- One iteration's post-scroll metric read in ESPN's drafted loop. -/
def espnDraftedMets (env : Nat → Node) (p : List Nat) : Nat → Int × Int × Int :=
  fun i => scrollMetrics env p (2 * i + 2)

/-- Whether ESPN's roster section exists and is scrollable
(`scrollHeight > clientHeight`) at entry. -/
def espnDraftedScrollable (doc : Node) : Bool :=
  match espnFindRoster doc with
  | none => false
  | some c => decide (c.data.clientHeight < c.data.scrollHeight)

/-- The path of ESPN's roster section ( `[]` when absent). -/
def espnRosterPath (doc : Node) : List Nat :=
  match espnFindRoster doc with
  | none => []
  | some c => c.path

/-- A scroll command issued to the page. -/
inductive Cmd where
  | scrollTo (top : Int)
deriving Repr, DecidableEq

/-- `scrollDraftedToTop` (the final reset step): scrolls the roster
section back to offset 0, or does nothing if it is gone. -/
def espnDraftedReset (env : Nat → Node) (t : Nat) : List Cmd :=
  match espnFindRoster (env t) with
  | none => []
  | some _ => [Cmd.scrollTo 0]

/-- `ESPNParser.getDraftedNames`: names, read-iteration count, and the
scroll commands of the final reset step. -/
def espnGetDraftedNamesFull (env : Nat → Node) : List String × Nat × List Cmd :=
  match espnFindRoster (env 0) with
  | none => ([], 0, [])
  | some innerColumn =>
      if innerColumn.data.clientHeight < innerColumn.data.scrollHeight then
        let r := draftedLoop (espnDraftedReads env) (espnDraftedMets env innerColumn.path)
          mergeNames maxAttempts 0 (-1) []
        (r.1, r.2, espnDraftedReset env (2 * r.2 + 1))
      else (espnCurrentDraftedNames (env 0), 0, [])

/-- The names `ESPNParser.getDraftedNames` returns. -/
def espnGetDraftedNames (env : Nat → Node) : List String :=
  (espnGetDraftedNamesFull env).1

/-- A drafted player record (`DraftedPlayer`). -/
structure DraftedPlayer where
  name : String
  position : String
  team : String
deriving Repr, DecidableEq

/-- Yahoo's drafted merge step:
`if (!playerNames.some(e => e.name === player.name)) playerNames.push(player)`. -/
def mergeDrafted (acc l : List DraftedPlayer) : List DraftedPlayer :=
  l.foldl (fun a q => if a.any (fun e => e.name == q.name) then a else a ++ [q]) acc

/-- `YahooParser.findMyTeamTableContainer`. -/
def yahooFindContainer (doc : Node) : Option Loc :=
  q1 doc [cselCls "myteam-table-container"]

/-- Yahoo's filled-row test selector `td span span:first-child`. -/
def yahooFirstChildSpanSel : CSel :=
  ⟨[.tag "span", .nthChild 1], [(.desc, [.tag "span"]), (.desc, [.tag "td"])]⟩

/-- Yahoo's drafted name selector `td span span.Whs\x28n\x29`. -/
def yahooNameCellSel : CSel :=
  ⟨[.tag "span", .cls "Whs(n)"], [(.desc, [.tag "span"]), (.desc, [.tag "td"])]⟩

/-- Yahoo's team/position selector `td span span abbr`. -/
def yahooAbbrSel : CSel :=
  ⟨[.tag "abbr"], [(.desc, [.tag "span"]), (.desc, [.tag "span"]), (.desc, [.tag "td"])]⟩

/-- `YahooParser.findDraftedPlayerElements`: the `tr.ys-player` rows in
the container whose first name span has non-blank text. -/
def yahooDraftedRows (doc : Node) : List Loc :=
  match yahooFindContainer doc with
  | none => []
  | some container =>
      (qAllUnder container [⟨[.tag "tr", .cls "ys-player"], []⟩]).filter (fun row =>
        match q1Under row [yahooFirstChildSpanSel] with
        | none => false
        | some nm => jsTrim (textContent (locNode nm)) != "")

/-- Trimmed text of an optional query result (`?.textContent?.trim() || ''`). -/
def optTrimText (o : Option Loc) : String :=
  match o with
  | none => ""
  | some l => jsTrim (textContent (locNode l))

/-- `YahooParser.getCurrentDraftedNames`: one record per filled row with
non-empty name (`span.Whs\x28n\x29`), position (second `abbr`) and team
(first `abbr`), skipping rows with any empty field. -/
def yahooCurrentDraftedNames (doc : Node) : List DraftedPlayer :=
  (yahooDraftedRows doc).filterMap (fun row =>
    let name := optTrimText (q1Under row [yahooNameCellSel])
    let abbrs := qAllUnder row [yahooAbbrSel]
    let team := optTrimText abbrs.head?
    let position := optTrimText abbrs[1]?
    if name != "" && position != "" && team != "" then
      some ⟨name, position, team⟩
    else none)

/-- One iteration's record read in Yahoo's drafted loop. -/
def yahooDraftedReads (env : Nat → Node) : Nat → List DraftedPlayer :=
  fun i => yahooCurrentDraftedNames (env (2 * i + 1))

/-- One iteration's post-scroll metric read in Yahoo's drafted loop. -/
def yahooDraftedMets (env : Nat → Node) (p : List Nat) : Nat → Int × Int × Int :=
  fun i => scrollMetrics env p (2 * i + 2)

/-- Whether Yahoo's drafted container exists and is scrollable at entry. -/
def yahooDraftedScrollable (doc : Node) : Bool :=
  match yahooFindContainer doc with
  | none => false
  | some c => decide (c.data.clientHeight < c.data.scrollHeight)

/-- The path of Yahoo's drafted container (`[]` when absent). -/
def yahooContainerPath (doc : Node) : List Nat :=
  match yahooFindContainer doc with
  | none => []
  | some c => c.path

/-- Yahoo's final reset step (`scrollDraftedToTop`). -/
def yahooDraftedReset (env : Nat → Node) (t : Nat) : List Cmd :=
  match yahooFindContainer (env t) with
  | none => []
  | some _ => [Cmd.scrollTo 0]

/-- `YahooParser.getDraftedNames`: records, read-iteration count, and
the scroll commands of the final reset step. -/
def yahooGetDraftedNamesFull (env : Nat → Node) : List DraftedPlayer × Nat × List Cmd :=
  match yahooFindContainer (env 0) with
  | none => ([], 0, [])
  | some container =>
      if container.data.clientHeight < container.data.scrollHeight then
        let r := draftedLoop (yahooDraftedReads env) (yahooDraftedMets env container.path)
          mergeDrafted maxAttempts 0 (-1) []
        (r.1, r.2, yahooDraftedReset env (2 * r.2 + 1))
      else (yahooCurrentDraftedNames (env 0), 0, [])

/-- The records `YahooParser.getDraftedNames` returns. -/
def yahooGetDraftedNames (env : Nat → Node) : List DraftedPlayer :=
  (yahooGetDraftedNamesFull env).1

def espnCell (title : String) : Node :=
  .elem { tag := "div", className := "Table2__table--cell player-column pc2", attrs := [("title", title)] } []

def espnInner (sh ch : Int) (cs : List Node) : Node :=
  .elem { tag := "div", className := "inner-column", attrs := [], scrollHeight := sh, clientHeight := ch } cs

def espnDraftedDoc : Node :=
  .elem { tag := "html", className := "page", attrs := [] }
    [.elem { tag := "div", className := "draft-column", attrs := [] }
      [.elem { tag := "div", className := "roster", attrs := [] } [],
       espnInner 100 10 [espnCell " Alice ", espnCell "Bob"]]]

def espnDraftedFlatDoc : Node :=
  .elem { tag := "html", className := "page", attrs := [] }
    [.elem { tag := "div", className := "draft-column", attrs := [] }
      [.elem { tag := "div", className := "roster", attrs := [] } [],
       espnInner 10 10 [espnCell "Alice", espnCell "Bob"]]]

def ydCell (nm team pos : String) : Node :=
  .elem { tag := "td", className := "", attrs := [] }
    [.elem { tag := "span", className := "outer", attrs := [] }
      [.elem { tag := "span", className := "Whs(n)", attrs := [] } [.text nm],
       .elem { tag := "span", className := "meta", attrs := [] }
        [.elem { tag := "abbr", className := "", attrs := [] } [.text team],
         .elem { tag := "abbr", className := "", attrs := [] } [.text pos]]]]

def ydRow (t : Int) (nm team pos : String) : Node :=
  .elem { tag := "tr", className := "ys-player", attrs := [], top := t } [ydCell nm team pos]

def ydContainer (sh ch : Int) (rows : List Node) : Node :=
  .elem { tag := "div", className := "myteam-table-container", attrs := [], scrollHeight := sh, clientHeight := ch } rows

def yahooDraftedDupDoc : Node :=
  .elem { tag := "html", className := "page", attrs := [] }
    [ydContainer 10 10 [ydRow 10 "A" "SF" "QB", ydRow 20 "A" "KC" "WR"]]

def yahooDraftedScrollDoc : Node :=
  .elem { tag := "html", className := "page", attrs := [] }
    [ydContainer 100 10 [ydRow 10 "A" "SF" "QB", ydRow 20 "B" "KC" "WR"]]

/-! ## Parser registry

`ParserManager` keeps a registration-ordered parser list (the shipped
build registers only the ESPN parser) and dispatches by URL. -/

/-- The part of a `SiteParser` the manager consults: its name, its URL
predicate, and its row query. -/
structure SiteParserE where
  pname : String
  canParse : String → Bool
  getPlayerRows : Node → List Loc

/-- `ESPNParser.canParse`:
`url.includes('fantasy.espn.com/football/draft')`. -/
def espnParserE : SiteParserE :=
  ⟨"ESPN", fun url => strContains url "fantasy.espn.com/football/draft",
    espnGetPlayerRows⟩

/-- `registerParsers()` pushes only `new ESPNParser()`. -/
def registeredParsers : List SiteParserE :=
  [espnParserE]

/-- `ParserManager.getParserForUrl`:
`this.parsers.find(parser => parser.canParse(url)) || null`. -/
def getParserForUrl (ps : List SiteParserE) (url : String) : Option SiteParserE :=
  ps.find? (fun parser => parser.canParse url)

/-- `ParserManager.getPlayerRows`: delegate to the matching parser, or
return `[]` when there is none. -/
def parserManagerGetPlayerRows (ps : List SiteParserE) (url : String) (doc : Node) :
    List Loc :=
  match getParserForUrl ps url with
  | none => []
  | some parser => parser.getPlayerRows doc

/-! ## Missing-anchor behaviour and the ESPN scroll primitives -/

/-- ESPN's scrollbar track:
`.ScrollbarLayout_main.ScrollbarLayout_mainVertical.public_Scrollbar_main`
under `.draft-players`. -/
def espnFindScrollbar (doc : Node) : Option Loc :=
  match q1 doc [cselCls "draft-players"] with
  | none => none
  | some sec =>
      q1Under sec [⟨[.cls "ScrollbarLayout_main", .cls "ScrollbarLayout_mainVertical",
        .cls "public_Scrollbar_main"], []⟩]

/-- ESPN's scrollbar face:
`.ScrollbarLayout_face.ScrollbarLayout_faceVertical.public_Scrollbar_face`
under `.draft-players`. -/
def espnFindScrollbarFace (doc : Node) : Option Loc :=
  match q1 doc [cselCls "draft-players"] with
  | none => none
  | some sec =>
      q1Under sec [⟨[.cls "ScrollbarLayout_face", .cls "ScrollbarLayout_faceVertical",
        .cls "public_Scrollbar_face"], []⟩]

/-- A synthetic mouse event dispatched at page coordinates. -/
structure MouseEv where
  kind : String
  x : ℚ
  y : ℚ
deriving Repr, DecidableEq

/-- `ESPNParser.scrollToTop`: drag the scrollbar face to the top of the
track via a mousedown/mousemove/mouseup sequence; if the face or the
track is missing, dispatch nothing. -/
def espnScrollToTopEvents (doc : Node) : List MouseEv :=
  match espnFindScrollbarFace doc, espnFindScrollbar doc with
  | some face, some bar =>
      let startX := (face.data.left : ℚ) + (face.data.width : ℚ) / 2
      let startY := (face.data.top : ℚ) + (face.data.height : ℚ) / 2
      let endX := (bar.data.left : ℚ) + (bar.data.width : ℚ) / 2
      let endY := (bar.data.top : ℚ) + 1
      [⟨"mousedown", startX, startY⟩, ⟨"mousemove", endX, endY⟩,
        ⟨"mouseup", endX, endY⟩]
  | _, _ => []

/-- `ESPNParser.scrollDown`: drag the scrollbar face one pixel down; if
the face is missing, dispatch nothing. -/
def espnScrollDownEvents (doc : Node) : List MouseEv :=
  match espnFindScrollbarFace doc with
  | none => []
  | some face =>
      let x := (face.data.left : ℚ) + (face.data.width : ℚ) / 2
      let startY := (face.data.top : ℚ) + (face.data.height : ℚ) / 2
      [⟨"mousedown", x, startY⟩, ⟨"mousemove", x, startY + 1⟩,
        ⟨"mouseup", x, startY + 1⟩]

/-- An anchorless page. -/
def emptyDoc : Node :=
  .elem { tag := "html", className := "page", attrs := [] } []

/-! ## Structural lemmas about queries, insertion and counting -/

theorem fmRel_path_ne_nil (c : String) (l : List Node) :
    ∀ p n, fmRel c l = some (p, n) → p ≠ [] := by
  induction l with
  | nil => intro p n h; simp [fmRel] at h
  | cons x xs ih =>
      intro p n h
      cases hx : fmRelN c x with
      | some r =>
          obtain ⟨px, nx⟩ := r
          simp [fmRel, hx] at h
          simp [← h.1]
      | none =>
          cases ht : fmRel c xs with
          | none => simp [fmRel, hx, ht] at h
          | some r =>
              obtain ⟨pt, nt⟩ := r
              cases pt with
              | nil => exact absurd rfl (ih [] nt ht)
              | cons i p2 =>
                  simp [fmRel, hx, ht] at h
                  simp [← h.1]

/-- The path returned by a query navigates to the returned node;
moreover the returned node is a matching element. -/
theorem fmRel_valid (c : String) (l : List Node) :
    ∀ p n, fmRel c l = some (p, n) →
      subAtL l p = some n ∧ ∃ d cs, n = .elem d cs ∧ hasCls c d = true := by
  refine fmRel.induct c
    (fun x => ∀ p n, fmRelN c x = some (p, n) →
      subAtN x p = some n ∧ ∃ d cs, n = .elem d cs ∧ hasCls c d = true)
    (fun l => ∀ p n, fmRel c l = some (p, n) →
      subAtL l p = some n ∧ ∃ d cs, n = .elem d cs ∧ hasCls c d = true)
    ?_ ?_ ?_ ?_ ?_ ?_ ?_ ?_ l
  · intro s p n h
    simp [fmRelN] at h
  · intro d cs hd p n h
    simp [fmRelN, hd] at h
    obtain ⟨h1, h2⟩ := h
    subst h1
    exact ⟨by simp [subAtN, ← h2], d, cs, h2.symm, hd⟩
  · intro d cs hd ihl p n h
    rw [show fmRelN c (.elem d cs) = fmRel c cs by simp [fmRelN, hd]] at h
    have hne := fmRel_path_ne_nil c cs p n h
    obtain ⟨j, p', hp⟩ : ∃ j p', p = j :: p' := by
      cases p with
      | nil => exact absurd rfl hne
      | cons a as => exact ⟨a, as, rfl⟩
    subst hp
    obtain ⟨hs, he⟩ := ihl (j :: p') n h
    exact ⟨by simpa [subAtN, subAtL] using hs, he⟩
  · intro p n h
    simp [fmRel] at h
  · intro x xs px nx hx ihn p n h
    simp [fmRel, hx] at h
    obtain ⟨h1, h2⟩ := h
    subst h2
    obtain ⟨hs, he⟩ := ihn px nx hx
    refine ⟨?_, he⟩
    rw [← h1]
    simpa [subAtL, subAtIdx] using hs
  · intro x xs hx ht ihn ihl p n h
    simp [fmRel, hx, ht] at h
  · intro x xs hx i p2 n2 ht ihn ihl p n h
    simp [fmRel, hx, ht] at h
    obtain ⟨h1, h2⟩ := h
    subst h2
    obtain ⟨hs, he⟩ := ihl (i :: p2) n2 ht
    refine ⟨?_, he⟩
    rw [← h1]
    simpa [subAtL, subAtIdx] using hs
  · intro x xs hx n2 ht ihn ihl p n h
    exact absurd rfl (fmRel_path_ne_nil c xs [] n2 ht)

/-- A successful class query means at least one matching element, and a
failed one means none. -/
theorem fmRel_cnt (c : String) (l : List Node) :
    (∀ p n, fmRel c l = some (p, n) → 0 < cntL c l) ∧
      (fmRel c l = none → cntL c l = 0) := by
  refine fmRel.induct c
    (fun x => (∀ p n, fmRelN c x = some (p, n) → 0 < cntN c x) ∧
      (fmRelN c x = none → cntN c x = 0))
    (fun l => (∀ p n, fmRel c l = some (p, n) → 0 < cntL c l) ∧
      (fmRel c l = none → cntL c l = 0))
    ?_ ?_ ?_ ?_ ?_ ?_ ?_ ?_ l
  · intro s
    constructor
    · intro p n h; simp [fmRelN] at h
    · intro h; simp [cntN]
  · intro d cs hd
    constructor
    · intro p n h; simp [cntN, hd]
    · intro h; simp [fmRelN, hd] at h
  · intro d cs hd ihl
    constructor
    · intro p n h
      rw [show fmRelN c (.elem d cs) = fmRel c cs by simp [fmRelN, hd]] at h
      have := ihl.1 p n h
      simp [cntN]
      omega
    · intro h
      rw [show fmRelN c (.elem d cs) = fmRel c cs by simp [fmRelN, hd]] at h
      simp [cntN, hd, ihl.2 h]
  · constructor
    · intro p n h; simp [fmRel] at h
    · intro h; simp [cntL]
  · intro x xs px nx hx ihn
    constructor
    · intro p n h
      have := ihn.1 px nx hx
      simp [cntL]
      omega
    · intro h
      simp [fmRel, hx] at h
  · intro x xs hx ht ihn ihl
    constructor
    · intro p n h
      simp [fmRel, hx, ht] at h
    · intro h
      simp [cntL, ihn.2 hx, ihl.2 ht]
  · intro x xs hx i p2 n2 ht ihn ihl
    constructor
    · intro p n h
      have := ihl.1 (i :: p2) n2 ht
      simp [cntL]
      omega
    · intro h
      simp [fmRel, hx, ht] at h
  · intro x xs hx n2 ht ihn ihl
    exact absurd rfl (fmRel_path_ne_nil c xs [] n2 ht)

/-- Zero matching elements force a failed query. -/
theorem cnt_zero_fmRel_none {c : String} {l : List Node}
    (h : cntL c l = 0) : fmRel c l = none := by
  cases hq : fmRel c l with
  | none => rfl
  | some r =>
      obtain ⟨p, n⟩ := r
      have := (fmRel_cnt c l).1 p n hq
      omega

/-- A positive match count forces a successful query. -/
theorem cnt_pos_fmRel_isSome {c : String} {l : List Node}
    (h : 0 < cntL c l) : (fmRel c l).isSome = true := by
  cases hq : fmRel c l with
  | none => have := (fmRel_cnt c l).2 hq; omega
  | some r => simp

/-- Appending one node at the end of the sibling list does not disturb an
existing first match. -/
theorem fmRel_append_one (c : String) (l : List Node) :
    ∀ p n b, fmRel c l = some (p, n) → fmRel c (l ++ [b]) = some (p, n) := by
  induction l with
  | nil => intro p n b h; simp [fmRel] at h
  | cons x xs ih =>
      intro p n b h
      cases hx : fmRelN c x with
      | some r =>
          obtain ⟨px, nx⟩ := r
          simp [fmRel, hx] at h
          simp [List.cons_append, fmRel, hx, h.1, h.2]
      | none =>
          cases ht : fmRel c xs with
          | none => simp [fmRel, hx, ht] at h
          | some r =>
              obtain ⟨pt, nt⟩ := r
              cases pt with
              | nil => exact absurd rfl (fmRel_path_ne_nil c xs [] nt ht)
              | cons i p2 =>
                  simp [fmRel, hx, ht] at h
                  rw [List.cons_append]
                  simp only [fmRel, hx, ih (i :: p2) nt b ht]
                  simp [h.1, h.2]

theorem insAfterL_succ (x : Node) (xs : List Node) (j : Nat) (p : List Nat) (b : Node) :
    insAfterL (x :: xs) ((j + 1) :: p) b = x :: insAfterL xs (j :: p) b := by
  cases p <;> cases x <;> simp [insAfterL]

/-- Inserting a sibling right after the first match leaves the first
match (path and node) unchanged. -/
theorem fmRel_insAfter (c : String) (l : List Node) :
    ∀ p n b, fmRel c l = some (p, n) → fmRel c (insAfterL l p b) = some (p, n) := by
  refine fmRel.induct c
    (fun x => ∀ p n b, fmRelN c x = some (p, n) → p ≠ [] →
      fmRelN c (insAfterN x p b) = some (p, n))
    (fun l => ∀ p n b, fmRel c l = some (p, n) →
      fmRel c (insAfterL l p b) = some (p, n))
    ?_ ?_ ?_ ?_ ?_ ?_ ?_ ?_ l
  · intro s p n b h hp
    simp [fmRelN] at h
  · intro d cs hd p n b h hp
    simp [fmRelN, hd] at h
    exact absurd h.1 hp
  · intro d cs hd ihl p n b h hp
    rw [show fmRelN c (.elem d cs) = fmRel c cs by simp [fmRelN, hd]] at h
    show fmRelN c (.elem d (insAfterL cs p b)) = some (p, n)
    rw [show fmRelN c (.elem d (insAfterL cs p b)) = fmRel c (insAfterL cs p b) by
      simp [fmRelN, hd]]
    exact ihl p n b h
  · intro p n b h
    simp [fmRel] at h
  · intro x xs px nx hx ihn p n b h
    simp [fmRel, hx] at h
    obtain ⟨h1, h2⟩ := h
    subst h2
    rw [← h1]
    cases px with
    | nil =>
        show fmRel c (x :: b :: xs) = _
        simp [fmRel, hx]
    | cons j p'' =>
        show fmRel c (insAfterN x (j :: p'') b :: xs) = _
        have := ihn (j :: p'') nx b hx (by simp)
        simp [fmRel, this]
  · intro x xs hx ht ihn ihl p n b h
    simp [fmRel, hx, ht] at h
  · intro x xs hx i p2 n2 ht ihn ihl p n b h
    simp [fmRel, hx, ht] at h
    obtain ⟨h1, h2⟩ := h
    subst h2
    rw [← h1, insAfterL_succ]
    simp [fmRel, hx, ihl (i :: p2) n2 b ht]
  · intro x xs hx n2 ht ihn ihl p n b h
    exact absurd rfl (fmRel_path_ne_nil c xs [] n2 ht)

theorem appendIntoL_succ (x : Node) (xs : List Node) (j : Nat) (p : List Nat) (b : Node) :
    appendIntoL (x :: xs) ((j + 1) :: p) b = x :: appendIntoL xs (j :: p) b := by
  cases x <;> simp [appendIntoL]

theorem appendIntoL_zero (x : Node) (xs : List Node) (p : List Nat) (b : Node) :
    appendIntoL (x :: xs) (0 :: p) b = appendIntoN x p b :: xs := by
  cases x <;> simp [appendIntoL]

/-- Appending a child inside the first match keeps it the first match;
the returned node gains the appended child. -/
theorem fmRel_appendInto_self (c : String) (l : List Node) :
    ∀ p n b, fmRel c l = some (p, n) →
      fmRel c (appendIntoL l p b) = some (p, appendKid n b) := by
  refine fmRel.induct c
    (fun x => ∀ p n b, fmRelN c x = some (p, n) →
      fmRelN c (appendIntoN x p b) = some (p, appendKid n b))
    (fun l => ∀ p n b, fmRel c l = some (p, n) →
      fmRel c (appendIntoL l p b) = some (p, appendKid n b))
    ?_ ?_ ?_ ?_ ?_ ?_ ?_ ?_ l
  · intro s p n b h
    simp [fmRelN] at h
  · intro d cs hd p n b h
    simp [fmRelN, hd] at h
    obtain ⟨h1, h2⟩ := h
    subst h1
    show fmRelN c (.elem d (cs ++ [b])) = _
    simp [fmRelN, hd, ← h2, appendKid]
  · intro d cs hd ihl p n b h
    rw [show fmRelN c (.elem d cs) = fmRel c cs by simp [fmRelN, hd]] at h
    have hne := fmRel_path_ne_nil c cs p n h
    obtain ⟨j, p', hp⟩ : ∃ j p', p = j :: p' := by
      cases p with
      | nil => exact absurd rfl hne
      | cons a as => exact ⟨a, as, rfl⟩
    subst hp
    show fmRelN c (.elem d (appendIntoL cs (j :: p') b)) = _
    rw [show fmRelN c (.elem d (appendIntoL cs (j :: p') b)) =
      fmRel c (appendIntoL cs (j :: p') b) by simp [fmRelN, hd]]
    exact ihl (j :: p') n b h
  · intro p n b h
    simp [fmRel] at h
  · intro x xs px nx hx ihn p n b h
    simp [fmRel, hx] at h
    obtain ⟨h1, h2⟩ := h
    subst h2
    rw [← h1, appendIntoL_zero]
    simp [fmRel, ihn px nx b hx]
  · intro x xs hx ht ihn ihl p n b h
    simp [fmRel, hx, ht] at h
  · intro x xs hx i p2 n2 ht ihn ihl p n b h
    simp [fmRel, hx, ht] at h
    obtain ⟨h1, h2⟩ := h
    subst h2
    rw [← h1, appendIntoL_succ]
    simp [fmRel, hx, ihl (i :: p2) n2 b ht]
  · intro x xs hx n2 ht ihn ihl p n b h
    exact absurd rfl (fmRel_path_ne_nil c xs [] n2 ht)

/-- Appending a child into an ancestor of the first match, at a path
that is a strict prefix of the match's path, leaves the first match
unchanged (the new child lands after the match in document order). -/
theorem fmRel_appendInto_pre (c : String) (l : List Node) :
    ∀ q j2 rest n b, fmRel c l = some (q ++ j2 :: rest, n) → q ≠ [] →
      fmRel c (appendIntoL l q b) = some (q ++ j2 :: rest, n) := by
  refine fmRel.induct c
    (fun x => ∀ q j2 rest n b, fmRelN c x = some (q ++ j2 :: rest, n) →
      fmRelN c (appendIntoN x q b) = some (q ++ j2 :: rest, n))
    (fun l => ∀ q j2 rest n b, fmRel c l = some (q ++ j2 :: rest, n) → q ≠ [] →
      fmRel c (appendIntoL l q b) = some (q ++ j2 :: rest, n))
    ?_ ?_ ?_ ?_ ?_ ?_ ?_ ?_ l
  · intro s q j2 rest n b h
    simp [fmRelN] at h
  · intro d cs hd q j2 rest n b h
    simp [fmRelN, hd] at h
  · intro d cs hd ihl q j2 rest n b h
    rw [show fmRelN c (.elem d cs) = fmRel c cs by simp [fmRelN, hd]] at h
    cases q with
    | nil =>
        show fmRelN c (.elem d (cs ++ [b])) = _
        rw [show fmRelN c (.elem d (cs ++ [b])) = fmRel c (cs ++ [b]) by
          simp [fmRelN, hd]]
        exact fmRel_append_one c cs _ n b h
    | cons qh qt =>
        show fmRelN c (.elem d (appendIntoL cs (qh :: qt) b)) = _
        rw [show fmRelN c (.elem d (appendIntoL cs (qh :: qt) b)) =
          fmRel c (appendIntoL cs (qh :: qt) b) by simp [fmRelN, hd]]
        exact ihl (qh :: qt) j2 rest n b h (by simp)
  · intro q j2 rest n b h hq
    simp [fmRel] at h
  · intro x xs px nx hx ihn q j2 rest n b h hq
    simp [fmRel, hx] at h
    obtain ⟨h1, h2⟩ := h
    subst h2
    obtain ⟨qh, qt, hqs⟩ : ∃ qh qt, q = qh :: qt := by
      cases q with
      | nil => exact absurd rfl hq
      | cons a as => exact ⟨a, as, rfl⟩
    subst hqs
    simp only [List.cons_append] at h1
    have hh : (0 : Nat) = qh := (List.cons_eq_cons.mp h1).1
    have ht2 : px = qt ++ j2 :: rest := (List.cons_eq_cons.mp h1).2
    subst ht2
    rw [← hh, appendIntoL_zero]
    have := ihn qt j2 rest nx b hx
    simp [fmRel, this, List.cons_append]
  · intro x xs hx ht ihn ihl q j2 rest n b h hq
    simp [fmRel, hx, ht] at h
  · intro x xs hx i p2 n2 ht ihn ihl q j2 rest n b h hq
    simp [fmRel, hx, ht] at h
    obtain ⟨h1, h2⟩ := h
    subst h2
    obtain ⟨qh, qt, hqs⟩ : ∃ qh qt, q = qh :: qt := by
      cases q with
      | nil => exact absurd rfl hq
      | cons a as => exact ⟨a, as, rfl⟩
    subst hqs
    simp only [List.cons_append] at h1
    have hh : i + 1 = qh := (List.cons_eq_cons.mp h1).1
    have ht2 : p2 = qt ++ j2 :: rest := (List.cons_eq_cons.mp h1).2
    subst ht2
    rw [← hh, appendIntoL_succ]
    have := ihl (i :: qt) j2 rest n2 b (by rw [ht, List.cons_append]) (by simp)
    simp [fmRel, hx, this, List.cons_append]
  · intro x xs hx n2 ht ihn ihl q j2 rest n b h hq
    exact absurd rfl (fmRel_path_ne_nil c xs [] n2 ht)

theorem cntL_append (c : String) (a b : List Node) :
    cntL c (a ++ b) = cntL c a + cntL c b := by
  induction a with
  | nil => simp [cntL]
  | cons x xs ih =>
      have ih' : cntL c (xs.append b) = cntL c xs + cntL c b := ih
      simp only [List.cons_append, cntL]
      omega

theorem cntL_kids_le_cntN (c : String) (n : Node) :
    cntL c n.kidsL ≤ cntN c n := by
  cases n with
  | text s => simp [Node.kidsL, cntL, cntN]
  | elem d cs =>
      simp only [Node.kidsL, cntN]
      omega

/-- A subtree's match count is bounded by the count where it sits. -/
theorem cnt_mono (c : String) (l : List Node) (j : Nat) (q : List Nat) :
    ∀ m, subAtIdx l j q = some m → cntN c m ≤ cntL c l := by
  refine subAtIdx.induct
    (fun x q => ∀ m, subAtN x q = some m → cntN c m ≤ cntN c x)
    (fun l j q => ∀ m, subAtIdx l j q = some m → cntN c m ≤ cntL c l)
    ?_ ?_ ?_ ?_ ?_ ?_ l j q
  · intro n m h
    simp [subAtN] at h
    simp [h]
  · intro s hd tl m h
    simp [subAtN] at h
  · intro d cs j' p ih m h
    rw [show subAtN (.elem d cs) (j' :: p) = subAtIdx cs j' p by simp [subAtN]] at h
    calc cntN c m ≤ cntL c cs := ih m h
      _ ≤ cntN c (.elem d cs) := by simp only [cntN]; omega
  · intro j' p m h
    simp [subAtIdx] at h
  · intro x tl p ih m h
    rw [show subAtIdx (x :: tl) 0 p = subAtN x p by simp [subAtIdx]] at h
    have := ih m h
    simp only [cntL]
    omega
  · intro x xs j' p ih m h
    rw [show subAtIdx (x :: xs) (j' + 1) p = subAtIdx xs j' p by simp [subAtIdx]] at h
    have := ih m h
    simp only [cntL]
    omega

/-- Inserting a sibling after a valid nonempty path adds exactly the
inserted subtree's matches to the count. -/
theorem cnt_insAfter (c : String) (l : List Node) (p : List Nat) (b : Node) :
    ∀ m, subAtL l p = some m →
      cntL c (insAfterL l p b) = cntL c l + cntN c b := by
  refine insAfterL.induct
    (fun x p b => ∀ m, subAtN x p = some m → p ≠ [] →
      cntN c (insAfterN x p b) = cntN c x + cntN c b)
    (fun l p b => ∀ m, subAtL l p = some m →
      cntL c (insAfterL l p b) = cntL c l + cntN c b)
    ?_ ?_ ?_ ?_ ?_ ?_ ?_ l p b
  · intro s q b' m h hq
    cases q with
    | nil => exact absurd rfl hq
    | cons a as => simp [subAtN] at h
  · intro d cs q b' ih m h hq
    obtain ⟨j, p', hp⟩ : ∃ j p', q = j :: p' := by
      cases q with
      | nil => exact absurd rfl hq
      | cons a as => exact ⟨a, as, rfl⟩
    subst hp
    rw [show subAtN (.elem d cs) (j :: p') = subAtIdx cs j p' by simp [subAtN]] at h
    show cntN c (.elem d (insAfterL cs (j :: p') b')) = _
    simp only [cntN]
    rw [ih m (by simpa [subAtL] using h)]
    omega
  · intro l' b' m h
    simp [subAtL] at h
  · intro hd tl b' m h
    cases hd <;> simp [subAtL, subAtIdx] at h
  · intro x xs b' m h
    show cntL c (x :: b' :: xs) = _
    simp only [cntL]
    omega
  · intro x xs j p' b' ih m h
    rw [show subAtL (x :: xs) (0 :: j :: p') = subAtN x (j :: p') by
      simp [subAtL, subAtIdx]] at h
    show cntL c (insAfterN x (j :: p') b' :: xs) = _
    simp only [cntL]
    rw [ih m h (by simp)]
    omega
  · intro x xs j p' b' ih m h
    rw [show subAtL (x :: xs) ((j + 1) :: p') = subAtIdx xs j p' by
      simp [subAtL, subAtIdx]] at h
    rw [insAfterL_succ]
    simp only [cntL]
    rw [ih m (by simpa [subAtL] using h)]
    omega

/-- Appending a child below a valid element path adds exactly the
appended subtree's matches to the count. -/
theorem cnt_appendInto (c : String) (l : List Node) (q : List Nat) (b : Node) :
    ∀ d0 cs0, subAtL l q = some (.elem d0 cs0) →
      cntL c (appendIntoL l q b) = cntL c l + cntN c b := by
  refine appendIntoL.induct
    (fun l q b => ∀ d0 cs0, subAtL l q = some (.elem d0 cs0) →
      cntL c (appendIntoL l q b) = cntL c l + cntN c b)
    (fun x q b => ∀ d0 cs0, subAtN x q = some (.elem d0 cs0) →
      cntN c (appendIntoN x q b) = cntN c x + cntN c b)
    ?_ ?_ ?_ ?_ ?_ ?_ ?_ l q b
  · intro s q' b' d0 cs0 h
    cases q' with
    | nil => simp [subAtN] at h
    | cons a as => simp [subAtN] at h
  · intro d cs b' d0 cs0 h
    show cntN c (.elem d (cs ++ [b'])) = _
    simp only [cntN, cntL_append, cntL]
    omega
  · intro d cs j p b' ih d0 cs0 h
    rw [show subAtN (.elem d cs) (j :: p) = subAtIdx cs j p by simp [subAtN]] at h
    show cntN c (.elem d (appendIntoL cs (j :: p) b')) = _
    simp only [cntN]
    rw [ih d0 cs0 (by simpa [subAtL] using h)]
    omega
  · intro l' b' d0 cs0 h
    simp [subAtL] at h
  · intro hd tl b' d0 cs0 h
    simp [subAtL, subAtIdx] at h
  · intro x xs p b' ih d0 cs0 h
    rw [show subAtL (x :: xs) (0 :: p) = subAtN x p by simp [subAtL, subAtIdx]] at h
    rw [appendIntoL_zero]
    simp only [cntL]
    rw [ih d0 cs0 h]
    omega
  · intro x xs j p b' ih d0 cs0 h
    rw [show subAtL (x :: xs) ((j + 1) :: p) = subAtIdx xs j p by
      simp [subAtL, subAtIdx]] at h
    rw [appendIntoL_succ]
    simp only [cntL]
    rw [ih d0 cs0 (by simpa [subAtL] using h)]
    omega

theorem stripBtnsL_append (a b : List Node) :
    stripBtnsL (a ++ b) = stripBtnsL a ++ stripBtnsL b := by
  induction a with
  | nil => simp [stripBtnsL]
  | cons x xs ih =>
      show stripBtnsL (x :: (xs ++ b)) = _
      cases hx : stripBtnsN x with
      | none => simp [stripBtnsL, hx, ih]
      | some y => simp [stripBtnsL, hx, ih]

theorem stripBtnsL_button (cs : List Node) :
    stripBtnsL (cs ++ [draftyButton]) = stripBtnsL cs := by
  rw [stripBtnsL_append]
  have h1 : stripBtnsL [draftyButton] = [] := rfl
  rw [h1, List.append_nil]

theorem mem_prefixesAsc (p : List Nat) :
    ∀ q, q ∈ prefixesAsc p ↔ ∃ r, q ++ r = p := by
  induction p with
  | nil =>
      intro q
      constructor
      · intro h
        simp [prefixesAsc] at h
        exact ⟨[], by simp [h]⟩
      · rintro ⟨r, hr⟩
        have h0 := List.append_eq_nil.mp hr
        simp [prefixesAsc, h0.1]
  | cons j p' ih =>
      intro q
      simp only [prefixesAsc, List.mem_cons, List.mem_map]
      constructor
      · rintro (rfl | ⟨q', hq', rfl⟩)
        · exact ⟨j :: p', rfl⟩
        · obtain ⟨r, hr⟩ := (ih q').mp hq'
          exact ⟨r, by simp [hr]⟩
      · rintro ⟨r, hr⟩
        cases q with
        | nil => exact Or.inl rfl
        | cons a as =>
            simp at hr
            obtain ⟨ha, hr'⟩ := hr
            subst ha
            exact Or.inr ⟨as, (ih as).mpr ⟨r, hr'⟩, rfl⟩

/-- Where `closest('.flex')` can land inside the row: on the name element
itself or on a strict ancestor path. -/
theorem flexTarget_cases (row : Node) (p : List Nat) (q : List Nat)
    (h : flexTargetInRow row p = some q) :
    (q = p ∨ ∃ j rest, p = q ++ j :: rest) ∧
      ∃ d cs, subAtN row q = some (.elem d cs) ∧ hasCls "flex" d = true := by
  have hmem : q ∈ selfAndAncestors p := List.mem_of_find?_eq_some h
  have hpred := List.find?_some h
  constructor
  · have : q ∈ prefixesAsc p := by
      simpa [selfAndAncestors] using hmem
    obtain ⟨r, hr⟩ := (mem_prefixesAsc p q).mp this
    cases r with
    | nil => exact Or.inl (by simpa using hr)
    | cons j rest => exact Or.inr ⟨j, rest, hr.symm⟩
  · cases hs : subAtN row q with
    | none => rw [hs] at hpred; simp at hpred
    | some n =>
        cases n with
        | text s => rw [hs] at hpred; simp at hpred
        | elem d cs =>
            rw [hs] at hpred
            simp at hpred
            exact ⟨d, cs, rfl, hpred⟩

theorem sleeperAdd_guard (row : Node) (h : rowHasBtn row = true) :
    sleeperAddActionButton row = row := by
  simp [sleeperAddActionButton, h]

theorem espnAdd_guard (row : Node) (ctx : Option Bool) (h : rowHasBtn row = true) :
    espnAddActionButton row ctx = (row, ctx) := by
  simp [espnAddActionButton, h]

/-- In a row containing no action button, no flex-container candidate can
report one. -/
theorem hasBtnAt_of_cnt_zero (row : Node) (q : List Nat)
    (h : cntL btnCls row.kidsL = 0) : hasBtnAt row q = false := by
  unfold hasBtnAt
  cases hs : subAtN row q with
  | none => rfl
  | some n =>
      have hcn : cntL btnCls n.kidsL = 0 := by
        cases q with
        | nil =>
            simp [subAtN] at hs
            subst hs
            exact h
        | cons j qt =>
            cases row with
            | text s => simp [subAtN] at hs
            | elem d cs =>
                rw [show subAtN (.elem d cs) (j :: qt) = subAtIdx cs j qt by
                  simp [subAtN]] at hs
                have h1 := cnt_mono btnCls cs j qt n hs
                have h2 := cntL_kids_le_cntN btnCls n
                simp only [Node.kidsL] at h
                omega
      simp [cnt_zero_fmRel_none hcn]

theorem espnSiblingInsert_getName (d : ElemData) (cs : List Node) (p : List Nat) (nm : Node)
    (h : fmRel espnNameCls cs = some (p, nm)) :
    espnGetName (espnSiblingInsert (.elem d cs) p) = espnGetName (.elem d cs) := by
  unfold espnSiblingInsert
  by_cases hb : hasBtnAt (.elem d cs) p.dropLast = true
  · simp [hb]
  · rw [if_neg hb]
    simp [espnGetName, Node.kidsL, fmRel_insAfter espnNameCls cs p nm draftyButton h, h]

theorem espnSiblingInsert_cnt (d : ElemData) (cs : List Node) (p : List Nat) (nm : Node)
    (hc : cntL btnCls cs = 0) (h : fmRel espnNameCls cs = some (p, nm)) :
    cntL btnCls (espnSiblingInsert (.elem d cs) p).kidsL = 1 := by
  unfold espnSiblingInsert
  rw [if_neg (by simp [hasBtnAt_of_cnt_zero (.elem d cs) p.dropLast (by simpa [Node.kidsL] using hc)])]
  have hv := (fmRel_valid espnNameCls cs p nm h).1
  have hbtn : cntN btnCls draftyButton = 1 := rfl
  simp only [Node.kidsL]
  rw [cnt_insAfter btnCls cs p draftyButton nm hv, hbtn, hc]

/-- C6: for every row (Sleeper and ESPN alike) and any above-row context,
`getName()` returns the same string before and after `addActionButton`
runs: the injected action control never leaks into the extracted name,
because extraction works on a clone from which action controls are
removed before the trimmed text is read. -/
theorem c6_getName_unaffected_by_button :
    (∀ row : Node, sleeperGetName (sleeperAddActionButton row) = sleeperGetName row) ∧
      (∀ (row : Node) (ctx : Option Bool),
        espnGetName (espnAddActionButton row ctx).1 = espnGetName row) := by
  constructor
  · intro row
    by_cases hb : rowHasBtn row = true
    · rw [sleeperAdd_guard row hb]
    · cases hnm : fmRel sleeperNameCls row.kidsL with
      | none => simp [sleeperAddActionButton, hb, hnm]
      | some r =>
          obtain ⟨p, nm⟩ := r
          cases row with
          | text s => simp [Node.kidsL, fmRel] at hnm
          | elem d cs =>
              have hrow : sleeperAddActionButton (.elem d cs) =
                  .elem d (insAfterL cs p draftyButton) := by
                simp [sleeperAddActionButton, hb, hnm]
              rw [hrow]
              simp only [Node.kidsL] at hnm
              simp [sleeperGetName, Node.kidsL, hnm,
                fmRel_insAfter sleeperNameCls cs p nm draftyButton hnm]
  · intro row ctx
    by_cases hb : rowHasBtn row = true
    · rw [espnAdd_guard row ctx hb]
    · cases hnm : fmRel espnNameCls row.kidsL with
      | none => simp [espnAddActionButton, hb, hnm]
      | some r =>
          obtain ⟨p, nm⟩ := r
          cases row with
          | text s => simp [Node.kidsL, fmRel] at hnm
          | elem d cs =>
              simp only [Node.kidsL] at hnm
              cases hft : flexTargetInRow (.elem d cs) p with
              | none =>
                  cases ctx with
                  | none =>
                      have : (espnAddActionButton (.elem d cs) none).1 =
                          espnSiblingInsert (.elem d cs) p := by
                        simp [espnAddActionButton, Node.kidsL, hb, hnm, hft]
                      rw [this]
                      exact espnSiblingInsert_getName d cs p nm hnm
                  | some hb2 =>
                      cases hb2 with
                      | true =>
                          have : (espnAddActionButton (.elem d cs) (some true)).1 =
                              espnSiblingInsert (.elem d cs) p := by
                            simp [espnAddActionButton, Node.kidsL, hb, hnm, hft]
                          rw [this]
                          exact espnSiblingInsert_getName d cs p nm hnm
                      | false =>
                          have : (espnAddActionButton (.elem d cs) (some false)).1 =
                              .elem d cs := by
                            simp [espnAddActionButton, Node.kidsL, hb, hnm, hft]
                          rw [this]
              | some q =>
                  by_cases hq : hasBtnAt (.elem d cs) q = true
                  · have : (espnAddActionButton (.elem d cs) ctx).1 =
                        espnSiblingInsert (.elem d cs) p := by
                      simp [espnAddActionButton, Node.kidsL, hb, hnm, hft, hq]
                    rw [this]
                    exact espnSiblingInsert_getName d cs p nm hnm
                  · have hrow : (espnAddActionButton (.elem d cs) ctx).1 =
                        appendIntoN (.elem d cs) q draftyButton := by
                      simp [espnAddActionButton, Node.kidsL, hb, hnm, hft, hq]
                    rw [hrow]
                    obtain ⟨hdisj, dq, csq, hsq, hflex⟩ := flexTarget_cases (.elem d cs) p q hft
                    cases q with
                    | nil =>
                        show espnGetName (.elem d (cs ++ [draftyButton])) = _
                        simp [espnGetName, Node.kidsL, hnm,
                          fmRel_append_one espnNameCls cs p nm draftyButton hnm]
                    | cons qh qt =>
                        show espnGetName (.elem d (appendIntoL cs (qh :: qt) draftyButton)) = _
                        cases hdisj with
                        | inl hqp =>
                            subst hqp
                            have hself := fmRel_appendInto_self espnNameCls cs (qh :: qt) nm
                              draftyButton hnm
                            obtain ⟨-, dn, csn, hnmeq, -⟩ :=
                              fmRel_valid espnNameCls cs (qh :: qt) nm hnm
                            subst hnmeq
                            simp [espnGetName, Node.kidsL, hnm, hself, appendKid,
                              stripBtns, stripBtnsL_button]
                        | inr hpre =>
                            obtain ⟨j, rest, hp⟩ := hpre
                            have hpreq := fmRel_appendInto_pre espnNameCls cs (qh :: qt) j rest nm
                              draftyButton (by rw [← hp]; exact hnm) (by simp)
                            simp [espnGetName, Node.kidsL, hnm, hp, hpreq]

/-- C7: `addActionButton` is idempotent.  If an action control already
exists under the row, both parsers' implementations leave the document
unchanged; and on a row that has a name element and no action control
yet, calling `addActionButton` twice leaves exactly one action control
under the row (for ESPN, in every above-row context). -/
theorem c7_addActionButton_idempotent :
    (∀ row : Node, rowHasBtn row = true → sleeperAddActionButton row = row) ∧
      (∀ (row : Node) (ctx : Option Bool), rowHasBtn row = true →
        espnAddActionButton row ctx = (row, ctx)) ∧
      (∀ row : Node, cntL btnCls row.kidsL = 0 →
        (fmRel sleeperNameCls row.kidsL).isSome = true →
        cntL btnCls (sleeperAddActionButton (sleeperAddActionButton row)).kidsL = 1) ∧
      (∀ (row : Node) (ctx : Option Bool), cntL btnCls row.kidsL = 0 →
        (fmRel espnNameCls row.kidsL).isSome = true →
        cntL btnCls (espnAddActionButton (espnAddActionButton row ctx).1
          (espnAddActionButton row ctx).2).1.kidsL = 1) := by
  refine ⟨sleeperAdd_guard, espnAdd_guard, ?_, ?_⟩
  · intro row hc hn
    obtain ⟨r, hnm⟩ := Option.isSome_iff_exists.mp hn
    obtain ⟨p, nm⟩ := r
    cases row with
    | text s => simp [Node.kidsL, fmRel] at hnm
    | elem d cs =>
        simp only [Node.kidsL] at hnm hc
        have hb : rowHasBtn (.elem d cs) = false := by
          simp [rowHasBtn, Node.kidsL, cnt_zero_fmRel_none hc]
        have hrow : sleeperAddActionButton (.elem d cs) =
            .elem d (insAfterL cs p draftyButton) := by
          simp [sleeperAddActionButton, Node.kidsL, hb, hnm]
        have hv := (fmRel_valid sleeperNameCls cs p nm hnm).1
        have hcnt1 : cntL btnCls (insAfterL cs p draftyButton) = 1 := by
          rw [cnt_insAfter btnCls cs p draftyButton nm hv, hc]
          rfl
        have hb1 : rowHasBtn (.elem d (insAfterL cs p draftyButton)) = true := by
          simp only [rowHasBtn, Node.kidsL]
          exact cnt_pos_fmRel_isSome (by omega)
        rw [hrow, sleeperAdd_guard _ hb1]
        simpa [Node.kidsL] using hcnt1
  · intro row ctx hc hn
    obtain ⟨r, hnm⟩ := Option.isSome_iff_exists.mp hn
    obtain ⟨p, nm⟩ := r
    cases row with
    | text s => simp [Node.kidsL, fmRel] at hnm
    | elem d cs =>
        simp only [Node.kidsL] at hnm hc
        have hb : rowHasBtn (.elem d cs) = false := by
          simp [rowHasBtn, Node.kidsL, cnt_zero_fmRel_none hc]
        have hbtn1 : cntN btnCls draftyButton = 1 := rfl
        cases hft : flexTargetInRow (.elem d cs) p with
        | some q =>
            have hq : hasBtnAt (.elem d cs) q = false :=
              hasBtnAt_of_cnt_zero (.elem d cs) q (by simpa [Node.kidsL] using hc)
            have hrow : espnAddActionButton (.elem d cs) ctx =
                (appendIntoN (.elem d cs) q draftyButton, ctx) := by
              simp [espnAddActionButton, Node.kidsL, hb, hnm, hft, hq]
            obtain ⟨-, dq, csq, hsq, -⟩ := flexTarget_cases (.elem d cs) p q hft
            have hcnt1 : cntL btnCls (appendIntoN (.elem d cs) q draftyButton).kidsL = 1 := by
              cases q with
              | nil =>
                  show cntL btnCls (Node.kidsL (.elem d (cs ++ [draftyButton]))) = 1
                  simp only [Node.kidsL]
                  rw [cntL_append, hc]
                  rfl
              | cons qh qt =>
                  show cntL btnCls (Node.kidsL (.elem d (appendIntoL cs (qh :: qt) draftyButton))) = 1
                  simp only [Node.kidsL]
                  rw [show subAtN (.elem d cs) (qh :: qt) = subAtIdx cs qh qt by
                    simp [subAtN]] at hsq
                  rw [cnt_appendInto btnCls cs (qh :: qt) draftyButton dq csq
                    (by simpa [subAtL] using hsq), hc, hbtn1]
            have hb1 : rowHasBtn (appendIntoN (.elem d cs) q draftyButton) = true := by
              simp only [rowHasBtn]
              exact cnt_pos_fmRel_isSome (by omega)
            rw [hrow]
            show cntL btnCls (espnAddActionButton (appendIntoN (.elem d cs) q draftyButton) ctx).1.kidsL = 1
            rw [espnAdd_guard _ ctx hb1]
            exact hcnt1
        | none =>
            have hsib1 : cntL btnCls (espnSiblingInsert (.elem d cs) p).kidsL = 1 :=
              espnSiblingInsert_cnt d cs p nm hc hnm
            have hbsib : rowHasBtn (espnSiblingInsert (.elem d cs) p) = true := by
              simp only [rowHasBtn]
              exact cnt_pos_fmRel_isSome (by omega)
            cases ctx with
            | none =>
                have hrow : espnAddActionButton (.elem d cs) none =
                    (espnSiblingInsert (.elem d cs) p, none) := by
                  simp [espnAddActionButton, Node.kidsL, hb, hnm, hft]
                rw [hrow]
                show cntL btnCls (espnAddActionButton (espnSiblingInsert (.elem d cs) p) none).1.kidsL = 1
                rw [espnAdd_guard _ none hbsib]
                exact hsib1
            | some hb2 =>
                cases hb2 with
                | true =>
                    have hrow : espnAddActionButton (.elem d cs) (some true) =
                        (espnSiblingInsert (.elem d cs) p, some true) := by
                      simp [espnAddActionButton, Node.kidsL, hb, hnm, hft]
                    rw [hrow]
                    show cntL btnCls (espnAddActionButton (espnSiblingInsert (.elem d cs) p)
                      (some true)).1.kidsL = 1
                    rw [espnAdd_guard _ (some true) hbsib]
                    exact hsib1
                | false =>
                    have hrow : espnAddActionButton (.elem d cs) (some false) =
                        (.elem d cs, some true) := by
                      simp [espnAddActionButton, Node.kidsL, hb, hnm, hft]
                    rw [hrow]
                    show cntL btnCls (espnAddActionButton (.elem d cs) (some true)).1.kidsL = 1
                    have hrow2 : espnAddActionButton (.elem d cs) (some true) =
                        (espnSiblingInsert (.elem d cs) p, some true) := by
                      simp [espnAddActionButton, Node.kidsL, hb, hnm, hft]
                    rw [hrow2]
                    exact hsib1

theorem c7_addActionButton_idempotent_witness :
    sleeperAddActionButton wRowBtn = wRowBtn ∧
      espnAddActionButton wRowBtn none = (wRowBtn, none) ∧
      cntL btnCls (sleeperAddActionButton (sleeperAddActionButton wRowS)).kidsL = 1 ∧
      cntL btnCls (espnAddActionButton (espnAddActionButton wRowE none).1
        (espnAddActionButton wRowE none).2).1.kidsL = 1 :=
  ⟨c7_addActionButton_idempotent.1 wRowBtn (by decide),
    c7_addActionButton_idempotent.2.1 wRowBtn none (by decide),
    c7_addActionButton_idempotent.2.2.1 wRowS (by decide) (by decide),
    c7_addActionButton_idempotent.2.2.2 wRowE none (by decide) (by decide)⟩

/-- Every location found below a starting point sits at a path extending
the starting path, its first branch at least the starting child index. -/
theorem locs_path_shape (l : List Node) (p : List Nat) (j e : Nat) (anc : List AncE) :
    ∀ loc ∈ locsL l p j e anc, ∃ k rest, loc.path = p ++ k :: rest ∧ j ≤ k := by
  refine locsL.induct
    (fun x p j e anc => ∀ loc ∈ locsN x p j e anc, ∃ rest, loc.path = p ++ j :: rest)
    (fun l p j e anc => ∀ loc ∈ locsL l p j e anc, ∃ k rest, loc.path = p ++ k :: rest ∧ j ≤ k)
    ?_ ?_ ?_ ?_ ?_ l p j e anc
  · intro s p' j' e' anc' loc h
    simp [locsN] at h
  · intro d cs p' j' e' anc' ih loc h
    rw [show locsN (.elem d cs) p' j' e' anc' =
      ⟨p' ++ [j'], e', d, cs, anc'⟩ ::
        locsL cs (p' ++ [j']) 0 1 (⟨p' ++ [j'], e', d, cs⟩ :: anc') by simp [locsN]] at h
    rcases List.mem_cons.mp h with hself | hkid
    · exact ⟨[], by simp [hself]⟩
    · obtain ⟨k, rest, hpath, -⟩ := ih loc hkid
      exact ⟨k :: rest, by simp [hpath]⟩
  · intro p' j' e' anc' loc h
    simp [locsL] at h
  · intro s rest p' j' e' anc' ih loc h
    rw [show locsL (.text s :: rest) p' j' e' anc' = locsL rest p' (j' + 1) e' anc' by
      simp [locsL]] at h
    obtain ⟨k, r, hp, hk⟩ := ih loc h
    exact ⟨k, r, hp, by omega⟩
  · intro d cs rest p' j' e' anc' ihn ihl loc h
    rw [show locsL (.elem d cs :: rest) p' j' e' anc' =
      locsN (.elem d cs) p' j' e' anc' ++ locsL rest p' (j' + 1) (e' + 1) anc' by
      simp [locsL]] at h
    rcases List.mem_append.mp h with hn | hr
    · obtain ⟨r, hp⟩ := ihn loc hn
      exact ⟨j', r, hp, le_refl j'⟩
    · obtain ⟨k, r, hp, hk⟩ := ihl loc hr
      exact ⟨k, r, hp, by omega⟩

/-- Distinct locations in a traversal have distinct paths: `querySelectorAll`
never returns the same element twice. -/
theorem locs_path_pairwise (l : List Node) (p : List Nat) (j e : Nat) (anc : List AncE) :
    List.Pairwise (fun a b => a.path ≠ b.path) (locsL l p j e anc) := by
  refine locsL.induct
    (fun x p j e anc => List.Pairwise (fun a b => a.path ≠ b.path) (locsN x p j e anc))
    (fun l p j e anc => List.Pairwise (fun a b => a.path ≠ b.path) (locsL l p j e anc))
    ?_ ?_ ?_ ?_ ?_ l p j e anc
  · intro s p' j' e' anc'
    simp [locsN]
  · intro d cs p' j' e' anc' ih
    rw [show locsN (.elem d cs) p' j' e' anc' =
      ⟨p' ++ [j'], e', d, cs, anc'⟩ ::
        locsL cs (p' ++ [j']) 0 1 (⟨p' ++ [j'], e', d, cs⟩ :: anc') by simp [locsN]]
    refine List.pairwise_cons.mpr ⟨?_, ih⟩
    intro b hb
    obtain ⟨k, rest, hp, -⟩ :=
      locs_path_shape cs (p' ++ [j']) 0 1 (⟨p' ++ [j'], e', d, cs⟩ :: anc') b hb
    show (p' ++ [j'] : List Nat) ≠ b.path
    rw [hp]
    intro hcontra
    have hlen := congrArg List.length hcontra
    simp [List.length_append] at hlen
  · intro p' j' e' anc'
    simp [locsL]
  · intro s rest p' j' e' anc' ih
    rw [show locsL (.text s :: rest) p' j' e' anc' = locsL rest p' (j' + 1) e' anc' by
      simp [locsL]]
    exact ih
  · intro d cs rest p' j' e' anc' ihn ihl
    rw [show locsL (.elem d cs :: rest) p' j' e' anc' =
      locsN (.elem d cs) p' j' e' anc' ++ locsL rest p' (j' + 1) (e' + 1) anc' by
      simp [locsL]]
    refine List.pairwise_append.mpr ⟨ihn, ihl, ?_⟩
    intro a ha b hb
    have hna : ∀ loc ∈ locsN (.elem d cs) p' j' e' anc', ∃ rest', loc.path = p' ++ j' :: rest' := by
      intro loc hl
      rw [show locsN (.elem d cs) p' j' e' anc' =
        ⟨p' ++ [j'], e', d, cs, anc'⟩ ::
          locsL cs (p' ++ [j']) 0 1 (⟨p' ++ [j'], e', d, cs⟩ :: anc') by simp [locsN]] at hl
      rcases List.mem_cons.mp hl with hself | hkid
      · exact ⟨[], by simp [hself]⟩
      · obtain ⟨k, rest', hpath, -⟩ :=
          locs_path_shape cs (p' ++ [j']) 0 1 (⟨p' ++ [j'], e', d, cs⟩ :: anc') loc hkid
        exact ⟨k :: rest', by simp [hpath]⟩
    obtain ⟨ra, hpa⟩ := hna a ha
    obtain ⟨kb, rb, hpb, hkb⟩ := locs_path_shape rest p' (j' + 1) (e' + 1) anc' b hb
    rw [hpa, hpb]
    intro hcontra
    have h1 : (j' :: ra : List Nat) = kb :: rb := List.append_cancel_left hcontra
    have : j' = kb := (List.cons_eq_cons.mp h1).1
    omega

/-- C1 (amended): every parser returns rows sorted by ascending
top-coordinate.  ESPN returns exactly one row per name-bearing element
that has a recognized row ancestor — with no de-duplication, so a row
ancestor shared by several name elements appears once per such name
element.  Sleeper returns its row elements themselves, which are pairwise
distinct. -/
theorem c1_rows_sorted_each_site :
    ∀ doc : Node,
      (espnGetPlayerRows doc).Sorted locTopLe ∧
        (espnGetPlayerRows doc).Perm ((espnNameLocs doc).filterMap espnRowOf) ∧
        (sleeperGetPlayerRows doc).Sorted locTopLe ∧
        (sleeperGetPlayerRows doc).Perm (sleeperRowLocs doc) ∧
        ((sleeperGetPlayerRows doc).map (fun l => l.path)).Nodup := by
  intro doc
  have hsymm : ∀ {a b : Loc}, a.path ≠ b.path → b.path ≠ a.path := fun h => h.symm
  refine ⟨?_, ?_, ?_, ?_, ?_⟩
  · cases hq : q1 doc [cselCls "draft-players"] with
    | none => simp [espnGetPlayerRows, hq, List.Sorted]
    | some sec =>
        by_cases he : (qAllUnder sec [cselCls "playerinfo__playername"]).isEmpty = true
        · simp [espnGetPlayerRows, hq, he, List.Sorted]
        · simp only [espnGetPlayerRows, hq]
          rw [if_neg he]
          exact List.sorted_insertionSort locTopLe _
  · cases hq : q1 doc [cselCls "draft-players"] with
    | none => simp [espnGetPlayerRows, espnNameLocs, hq]
    | some sec =>
        by_cases he : (qAllUnder sec [cselCls "playerinfo__playername"]).isEmpty = true
        · have hnil := List.isEmpty_iff.mp he
          simp [espnGetPlayerRows, espnNameLocs, hq, hnil]
        · simp only [espnGetPlayerRows, espnNameLocs, hq]
          rw [if_neg he]
          exact List.perm_insertionSort locTopLe _
  · cases hq : q1 doc [cselCls "draft-rankings"] with
    | none => simp [sleeperGetPlayerRows, hq, List.Sorted]
    | some sec =>
        by_cases he : (qAllUnder sec [cselCls "player-rank-item2"]).isEmpty = true
        · simp [sleeperGetPlayerRows, hq, he, List.Sorted]
        · simp only [sleeperGetPlayerRows, hq]
          rw [if_neg he]
          exact List.sorted_insertionSort locTopLe _
  · cases hq : q1 doc [cselCls "draft-rankings"] with
    | none => simp [sleeperGetPlayerRows, sleeperRowLocs, hq]
    | some sec =>
        by_cases he : (qAllUnder sec [cselCls "player-rank-item2"]).isEmpty = true
        · have hnil := List.isEmpty_iff.mp he
          simp [sleeperGetPlayerRows, sleeperRowLocs, hq, hnil]
        · simp only [sleeperGetPlayerRows, sleeperRowLocs, hq]
          rw [if_neg he]
          exact List.perm_insertionSort locTopLe _
  · cases hq : q1 doc [cselCls "draft-rankings"] with
    | none => simp [sleeperGetPlayerRows, hq]
    | some sec =>
        by_cases he : (qAllUnder sec [cselCls "player-rank-item2"]).isEmpty = true
        · simp [sleeperGetPlayerRows, hq, he]
        · simp only [sleeperGetPlayerRows, hq]
          rw [if_neg he]
          show List.Pairwise (fun a b => a ≠ b)
            (List.map (fun l => l.path) (List.insertionSort locTopLe
              (qAllUnder sec [cselCls "player-rank-item2"])))
          rw [List.pairwise_map]
          have hbase : List.Pairwise (fun a b : Loc => a.path ≠ b.path)
              (qAllUnder sec [cselCls "player-rank-item2"]) :=
            List.Pairwise.sublist (List.filter_sublist _) (locs_path_pairwise _ _ _ _ _)
          exact ((List.perm_insertionSort locTopLe _).pairwise_iff hsymm).mpr hbase

/-- C1 counterexample: on a document whose recognized container holds two
distinct name-bearing elements inside one row, ESPN's `getPlayerRows`
returns that row twice (same path `[0,0,0]`), so the returned rows are
not one-per-unique-row-ancestor. -/
theorem c1_counterexample :
    (espnNameLocs c1ExDoc).length = 2 ∧
      ((espnGetPlayerRows c1ExDoc).map (fun l => l.path)) = [[0, 0, 0], [0, 0, 0]] ∧
      ¬ (((espnGetPlayerRows c1ExDoc).map (fun l => l.path)).Nodup) := by
  decide

theorem mergeNames_cons (acc : List String) (x : String) (xs : List String) :
    mergeNames acc (x :: xs) =
      mergeNames (if acc.contains x then acc else acc ++ [x]) xs := rfl

theorem mergeNames_append (acc l1 l2 : List String) :
    mergeNames acc (l1 ++ l2) = mergeNames (mergeNames acc l1) l2 := by
  simp [mergeNames, List.foldl_append]

theorem firstIdx_append_left {a : String} {p : List String} (h : a ∈ p) (q : List String) :
    firstIdx (p ++ q) a = firstIdx p a := by
  induction p with
  | nil => cases h
  | cons x xs ih =>
      by_cases hx : x = a
      · simp [firstIdx, hx]
      · have hmem : a ∈ xs := by
          rcases List.mem_cons.mp h with h' | h'
          · exact absurd h'.symm hx
          · exact h'
        simp [firstIdx, hx, ih hmem]

theorem firstIdx_append_right {a : String} {p : List String} (h : a ∉ p) (q : List String) :
    firstIdx (p ++ q) a = p.length + firstIdx q a := by
  induction p with
  | nil => simp [firstIdx]
  | cons x xs ih =>
      have hx : ¬ x = a := fun he => h (he ▸ List.mem_cons_self x xs)
      have hmem : a ∉ xs := fun hm => h (List.mem_cons_of_mem x hm)
      simp [firstIdx, hx, ih hmem]
      omega

theorem firstIdx_lt_length {a : String} {p : List String} (h : a ∈ p) :
    firstIdx p a < p.length := by
  induction p with
  | nil => cases h
  | cons x xs ih =>
      by_cases hx : x = a
      · simp [firstIdx, hx]
      · have hmem : a ∈ xs := by
          rcases List.mem_cons.mp h with h' | h'
          · exact absurd h'.symm hx
          · exact h'
        simp [firstIdx, hx]
        exact ih hmem

theorem mergeNames_inv (l : List String) : ∀ acc p : List String,
    acc.Nodup → (∀ a, a ∈ acc ↔ a ∈ p) →
    List.Pairwise (fun a b => firstIdx p a < firstIdx p b) acc →
    (mergeNames acc l).Nodup ∧ (∀ a, a ∈ mergeNames acc l ↔ a ∈ p ++ l) ∧
      List.Pairwise (fun a b => firstIdx (p ++ l) a < firstIdx (p ++ l) b)
        (mergeNames acc l) := by
  induction l with
  | nil =>
      intro acc p hnd hmem hpw
      refine ⟨hnd, ?_, ?_⟩
      · intro a; simpa using hmem a
      · simpa using hpw
  | cons x xs ih =>
      intro acc p hnd hmem hpw
      rw [mergeNames_cons]
      by_cases hc : acc.contains x
      · have hxacc : x ∈ acc := by simpa using hc
        have hxp : x ∈ p := (hmem x).mp hxacc
        rw [if_pos hc]
        have h := ih acc (p ++ [x]) hnd
          (by
            intro a
            constructor
            · intro ha; exact List.mem_append_left _ ((hmem a).mp ha)
            · intro ha
              rcases List.mem_append.mp ha with h' | h'
              · exact (hmem a).mpr h'
              · rcases List.mem_singleton.mp h' with rfl; exact hxacc)
          (hpw.imp_of_mem (by
            intro a b hamem hbmem hab
            have hap : a ∈ p := (hmem a).mp hamem
            have hbp : b ∈ p := (hmem b).mp hbmem
            rw [firstIdx_append_left hap, firstIdx_append_left hbp]
            exact hab))
        simpa [List.append_assoc] using h
      · have hxacc : x ∉ acc := by simpa using hc
        have hxp : x ∉ p := fun h => hxacc ((hmem x).mpr h)
        rw [if_neg hc]
        have hnd' : (acc ++ [x]).Nodup := by
          rw [List.nodup_append]
          refine ⟨hnd, List.nodup_singleton x, ?_⟩
          intro a ha hb
          rcases List.mem_singleton.mp hb with rfl
          exact hxacc ha
        have h := ih (acc ++ [x]) (p ++ [x]) hnd'
          (by
            intro a
            rw [List.mem_append, List.mem_append]
            exact or_congr (hmem a) Iff.rfl)
          (by
            rw [List.pairwise_append]
            refine ⟨hpw.imp_of_mem (by
              intro a b hamem hbmem hab
              rw [firstIdx_append_left ((hmem a).mp hamem),
                firstIdx_append_left ((hmem b).mp hbmem)]
              exact hab), List.pairwise_singleton _ _, ?_⟩
            intro a ha b hb
            rcases List.mem_singleton.mp hb with rfl
            rw [firstIdx_append_left ((hmem a).mp ha), firstIdx_append_right hxp]
            have : firstIdx p a < p.length := firstIdx_lt_length ((hmem a).mp ha)
            simp [firstIdx]
            omega)
        simpa [List.append_assoc] using h

theorem mergeNames_nil_spec (l : List String) :
    (mergeNames [] l).Nodup ∧ (∀ a, a ∈ mergeNames [] l ↔ a ∈ l) ∧
      List.Pairwise (fun a b => firstIdx l a < firstIdx l b) (mergeNames [] l) := by
  have h := mergeNames_inv l [] [] List.nodup_nil (by simp) List.Pairwise.nil
  simpa using h

theorem streamFrom_succ (read : Nat → List String) (t m : Nat) :
    streamFrom read t (m + 1) = read t ++ streamFrom read (t + 1) m := by
  have hfun : ((fun i => read (t + i)) ∘ Nat.succ) = (fun i : Nat => read (t + 1 + i)) := by
    funext i
    simp only [Function.comp]
    congr 1
    omega
  simp only [streamFrom, List.range_succ_eq_map, List.map_cons, List.map_map,
    List.flatten_cons, Nat.add_zero, hfun]

theorem collectLoop_run (read : Nat → List String) (k : Nat) :
    ∀ fuel t acc, ∃ m, m ≤ fuel ∧
      collectLoop read k fuel t acc = (mergeNames acc (streamFrom read t m), m) := by
  intro fuel
  induction fuel with
  | zero =>
      intro t acc
      exact ⟨0, Nat.le_refl 0, by simp [collectLoop, streamFrom, mergeNames]⟩
  | succ fuel ih =>
      intro t acc
      by_cases h1 : acc.length < k
      · by_cases h2 : k ≤ (mergeNames acc (read t)).length
        · refine ⟨1, by omega, ?_⟩
          rw [show streamFrom read t 1 = read t by rw [streamFrom_succ]; simp [streamFrom]]
          simp [collectLoop, h1, h2]
        · obtain ⟨m, hm, heq⟩ := ih (t + 1) (mergeNames acc (read t))
          refine ⟨m + 1, by omega, ?_⟩
          rw [streamFrom_succ, mergeNames_append]
          simp [collectLoop, h1, h2, heq]
      · exact ⟨0, Nat.zero_le _, by simp [collectLoop, h1, streamFrom, mergeNames]⟩

theorem yahooRun_eq (env : Nat → Node) (k : Nat) :
    (yahooIsScrollable (env 0) = true →
      yahooGetAvailableNamesRun env k =
        ((collectLoop (yahooReads env) k maxAttempts 0 []).1.take k,
          (collectLoop (yahooReads env) k maxAttempts 0 []).2)) ∧
    ((q1 (env 0) [cselCls "player-listing-table"]).isSome →
      yahooIsScrollable (env 0) = false →
      yahooGetAvailableNamesRun env k = (yahooCurrentNames (env 0), 0)) := by
  rcases hq : q1 (env 0) [cselCls "player-listing-table"] with _ | table
  · constructor
    · intro h
      simp [yahooIsScrollable, hq] at h
    · intro hs _
      simp [hq] at hs
  · constructor
    · intro h
      simp only [yahooIsScrollable, hq, decide_eq_true_eq] at h
      simp [yahooGetAvailableNamesRun, hq, h]
    · intro _ h
      simp only [yahooIsScrollable, hq, decide_eq_false_iff_not] at h
      simp [yahooGetAvailableNamesRun, hq, h]

theorem collectRun_spec (read : Nat → List String) (k : Nat) :
    ∃ m, m ≤ maxAttempts ∧
      collectLoop read k maxAttempts 0 [] =
        (mergeNames [] (streamFrom read 0 m), m) ∧
      (mergeNames [] (streamFrom read 0 m)).Nodup ∧
      List.Pairwise
        (fun a b => firstIdx (streamFrom read 0 m) a < firstIdx (streamFrom read 0 m) b)
        (mergeNames [] (streamFrom read 0 m)) := by
  obtain ⟨m, hm, heq⟩ := collectLoop_run read k maxAttempts 0 []
  obtain ⟨hnd, -, hpw⟩ := mergeNames_nil_spec (streamFrom read 0 m)
  exact ⟨m, hm, heq, hnd, hpw⟩

theorem availRun_spec (read : Nat → List String) (k : Nat) :
    ∃ m, m ≤ maxAttempts ∧
      (collectLoop read k maxAttempts 0 []).1.take k =
        (mergeNames [] (streamFrom read 0 m)).take k ∧
      ((collectLoop read k maxAttempts 0 []).1.take k).Nodup ∧
      List.Pairwise
        (fun a b => firstIdx (streamFrom read 0 m) a < firstIdx (streamFrom read 0 m) b)
        ((collectLoop read k maxAttempts 0 []).1.take k) := by
  obtain ⟨m, hm, heq, hnd, hpw⟩ := collectRun_spec read k
  rw [heq]
  exact ⟨m, hm, rfl, List.Nodup.sublist (List.take_sublist _ _) hnd,
    List.Pairwise.sublist (List.take_sublist _ _) hpw⟩

theorem take_length_le' (l : List String) (k : Nat) : (l.take k).length ≤ k := by
  rw [List.length_take]
  exact min_le_left _ _

theorem collectLoop_iters_le (read : Nat → List String) (k fuel t : Nat) (acc : List String) :
    (collectLoop read k fuel t acc).2 ≤ fuel := by
  obtain ⟨m, hm, heq⟩ := collectLoop_run read k fuel t acc
  rw [heq]
  exact hm

/-- **C2.** For every page history and every `requiredCount` k, Sleeper's
and ESPN's `getAvailableNames(k)` return at most k names, and so does
Yahoo's when its player table is scrollable; but on Yahoo's
non-scrollable path the currently visible names are returned as they
stand, without the final truncation, so the result can exceed k. -/
theorem c2_truncation_to_requiredCount :
    ∀ (env : Nat → Node) (k : Nat),
      (sleeperGetAvailableNames env k).length ≤ k ∧
      (espnGetAvailableNames env k).length ≤ k ∧
      (yahooIsScrollable (env 0) = true →
        (yahooGetAvailableNames env k).length ≤ k) ∧
      ((q1 (env 0) [cselCls "player-listing-table"]).isSome →
        yahooIsScrollable (env 0) = false →
        yahooGetAvailableNames env k = yahooCurrentNames (env 0)) := by
  intro env k
  refine ⟨take_length_le' _ _, take_length_le' _ _, ?_, ?_⟩
  · intro h
    show ((yahooGetAvailableNamesRun env k).1).length ≤ k
    rw [(yahooRun_eq env k).1 h]
    exact take_length_le' _ _
  · intro hs h
    show (yahooGetAvailableNamesRun env k).1 = _
    rw [(yahooRun_eq env k).2 hs h]

/-- C2 counterexample: a present but non-scrollable Yahoo player table
showing two names makes `getAvailableNames(1)` return both names,
exceeding `requiredCount = 1`. -/
theorem c2_counterexample :
    yahooGetAvailableNames (fun _ => yahooDoc) 1 = ["A", "B"] ∧
      ¬ ((yahooGetAvailableNames (fun _ => yahooDoc) 1).length ≤ 1) := by
  decide

/-- C2 witness: the scrollable-path bound and the non-scrollable-path
equation of `c2_truncation_to_requiredCount`, at concrete pages. -/
theorem c2_truncation_witness :
    (yahooGetAvailableNames (fun _ => yahooScrollDoc) 1).length ≤ 1 ∧
      yahooGetAvailableNames (fun _ => yahooDoc) 1 = yahooCurrentNames yahooDoc :=
  ⟨(c2_truncation_to_requiredCount (fun _ => yahooScrollDoc) 1).2.2.1 (by decide),
    (c2_truncation_to_requiredCount (fun _ => yahooDoc) 1).2.2.2 (by decide) (by decide)⟩

/-- **C3.** For every page history and k, the Sleeper and ESPN results, and
the Yahoo result when the table is scrollable, are duplicate-free and
listed in first-observed order over the call's read stream (a prefix of
at most `maxAttempts` reads); Yahoo's non-scrollable path bypasses the
de-duplicating accumulator, so its result can contain duplicates. -/
theorem c3_unique_first_observed_order :
    ∀ (env : Nat → Node) (k : Nat),
      (∃ m, m ≤ maxAttempts ∧
        sleeperGetAvailableNames env k =
          (mergeNames [] (streamFrom (sleeperReads env) 0 m)).take k ∧
        (sleeperGetAvailableNames env k).Nodup ∧
        List.Pairwise
          (fun a b => firstIdx (streamFrom (sleeperReads env) 0 m) a <
            firstIdx (streamFrom (sleeperReads env) 0 m) b)
          (sleeperGetAvailableNames env k)) ∧
      (∃ m, m ≤ maxAttempts ∧
        espnGetAvailableNames env k =
          (mergeNames [] (streamFrom (espnReads env) 0 m)).take k ∧
        (espnGetAvailableNames env k).Nodup ∧
        List.Pairwise
          (fun a b => firstIdx (streamFrom (espnReads env) 0 m) a <
            firstIdx (streamFrom (espnReads env) 0 m) b)
          (espnGetAvailableNames env k)) ∧
      (yahooIsScrollable (env 0) = true →
        ∃ m, m ≤ maxAttempts ∧
          yahooGetAvailableNames env k =
            (mergeNames [] (streamFrom (yahooReads env) 0 m)).take k ∧
          (yahooGetAvailableNames env k).Nodup ∧
          List.Pairwise
            (fun a b => firstIdx (streamFrom (yahooReads env) 0 m) a <
              firstIdx (streamFrom (yahooReads env) 0 m) b)
            (yahooGetAvailableNames env k)) := by
  intro env k
  refine ⟨?_, ?_, ?_⟩
  · obtain ⟨m, hm, h1, h2, h3⟩ := availRun_spec (sleeperReads env) k
    exact ⟨m, hm, h1, h2, h3⟩
  · obtain ⟨m, hm, h1, h2, h3⟩ := availRun_spec (espnReads env) k
    exact ⟨m, hm, h1, h2, h3⟩
  · intro h
    have hval : yahooGetAvailableNames env k
        = (collectLoop (yahooReads env) k maxAttempts 0 []).1.take k := by
      show (yahooGetAvailableNamesRun env k).1 = _
      rw [(yahooRun_eq env k).1 h]
    rw [hval]
    obtain ⟨m, hm, h1, h2, h3⟩ := availRun_spec (yahooReads env) k
    exact ⟨m, hm, h1, h2, h3⟩

/-- C3 counterexample: a non-scrollable Yahoo table whose two visible
rows carry the same name makes `getAvailableNames(5)` return that name
twice. -/
theorem c3_counterexample :
    yahooGetAvailableNames (fun _ => yahooDupDoc) 5 = ["A", "A"] ∧
      ¬ (yahooGetAvailableNames (fun _ => yahooDupDoc) 5).Nodup := by
  decide

/-- C3 witness: the scrollable-path guarantee of
`c3_unique_first_observed_order` at a concrete scrollable page. -/
theorem c3_unique_witness :
    ∃ m, m ≤ maxAttempts ∧
      yahooGetAvailableNames (fun _ => yahooScrollDoc) 3 =
        (mergeNames [] (streamFrom (yahooReads (fun _ => yahooScrollDoc)) 0 m)).take 3 ∧
      (yahooGetAvailableNames (fun _ => yahooScrollDoc) 3).Nodup ∧
      List.Pairwise
        (fun a b => firstIdx (streamFrom (yahooReads (fun _ => yahooScrollDoc)) 0 m) a <
          firstIdx (streamFrom (yahooReads (fun _ => yahooScrollDoc)) 0 m) b)
        (yahooGetAvailableNames (fun _ => yahooScrollDoc) 3) :=
  (c3_unique_first_observed_order (fun _ => yahooScrollDoc) 3).2.2 (by decide)

/-- **C4.** In all three parsers the collection loop of
`getAvailableNames` performs at most `maxAttempts = 100` read
iterations, and the call returns the (possibly short, possibly empty)
accumulator gathered from those reads, truncated to `requiredCount`. -/
theorem c4_attempt_ceiling :
    ∀ (env : Nat → Node) (k : Nat),
      (sleeperGetAvailableNamesRun env k).2 ≤ maxAttempts ∧
      (espnGetAvailableNamesRun env k).2 ≤ maxAttempts ∧
      (yahooGetAvailableNamesRun env k).2 ≤ maxAttempts ∧
      (∃ m, m ≤ maxAttempts ∧
        sleeperGetAvailableNames env k =
          (mergeNames [] (streamFrom (sleeperReads env) 0 m)).take k) ∧
      (∃ m, m ≤ maxAttempts ∧
        espnGetAvailableNames env k =
          (mergeNames [] (streamFrom (espnReads env) 0 m)).take k) := by
  intro env k
  refine ⟨collectLoop_iters_le _ _ _ _ _, collectLoop_iters_le _ _ _ _ _, ?_, ?_, ?_⟩
  · rcases hq : q1 (env 0) [cselCls "player-listing-table"] with _ | table
    · simp [yahooGetAvailableNamesRun, hq]
    · by_cases hsc : table.data.clientHeight < table.data.scrollHeight
      · simpa [yahooGetAvailableNamesRun, hq, hsc] using
          collectLoop_iters_le (yahooReads env) k maxAttempts 0 []
      · simp [yahooGetAvailableNamesRun, hq, hsc]
  · obtain ⟨m, hm, h1, -, -⟩ := availRun_spec (sleeperReads env) k
    exact ⟨m, hm, h1⟩
  · obtain ⟨m, hm, h1, -, -⟩ := availRun_spec (espnReads env) k
    exact ⟨m, hm, h1⟩

theorem mergeDrafted_cons (acc : List DraftedPlayer) (x : DraftedPlayer)
    (xs : List DraftedPlayer) :
    mergeDrafted acc (x :: xs) =
      mergeDrafted (if acc.any (fun e => e.name == x.name) then acc else acc ++ [x]) xs := rfl

theorem mergeDrafted_mem (l : List DraftedPlayer) :
    ∀ acc q, q ∈ mergeDrafted acc l → q ∈ acc ∨ q ∈ l := by
  induction l with
  | nil => intro acc q h; exact Or.inl h
  | cons x xs ih =>
      intro acc q h
      rw [mergeDrafted_cons] at h
      rcases ih _ q h with h' | h'
      · by_cases hc : acc.any (fun e => e.name == x.name)
        · rw [if_pos hc] at h'
          exact Or.inl h'
        · rw [if_neg hc] at h'
          rcases List.mem_append.mp h' with h2 | h2
          · exact Or.inl h2
          · rcases List.mem_singleton.mp h2 with rfl
            exact Or.inr (List.mem_cons_self _ _)
      · exact Or.inr (List.mem_cons_of_mem _ h')

theorem mergeDrafted_nodup (l : List DraftedPlayer) :
    ∀ acc, ((acc.map DraftedPlayer.name).Nodup) →
      ((mergeDrafted acc l).map DraftedPlayer.name).Nodup := by
  induction l with
  | nil => intro acc h; exact h
  | cons x xs ih =>
      intro acc h
      rw [mergeDrafted_cons]
      by_cases hc : acc.any (fun e => e.name == x.name)
      · rw [if_pos hc]
        exact ih acc h
      · rw [if_neg hc]
        apply ih
        rw [List.map_append, List.nodup_append]
        refine ⟨h, by simp, ?_⟩
        intro a ha hb
        simp only [List.map_cons, List.map_nil, List.mem_singleton] at hb
        simp only [List.any_eq_true, beq_iff_eq, not_exists, not_and] at hc
        obtain ⟨e, he, hea⟩ := List.mem_map.mp ha
        exact hc e he (by rw [hea, hb])

theorem draftedLoop_mem (read : Nat → List DraftedPlayer)
    (mets : Nat → Int × Int × Int) :
    ∀ fuel i prev acc q,
      q ∈ (draftedLoop read mets mergeDrafted fuel i prev acc).1 →
      q ∈ acc ∨ ∃ j, q ∈ read j := by
  intro fuel
  induction fuel with
  | zero => intro i prev acc q h; exact Or.inl h
  | succ fuel ih =>
      intro i prev acc q h
      by_cases hs : stallB (mets i) prev
      · simp only [draftedLoop, hs, if_true] at h
        rcases mergeDrafted_mem (read i) acc q h with h' | h'
        · exact Or.inl h'
        · exact Or.inr ⟨i, h'⟩
      · simp only [draftedLoop, hs, if_false, Bool.false_eq_true] at h
        rcases ih (i + 1) (mets i).1 _ q h with h' | h'
        · rcases mergeDrafted_mem (read i) acc q h' with h2 | h2
          · exact Or.inl h2
          · exact Or.inr ⟨i, h2⟩
        · exact Or.inr h'

theorem draftedLoop_nodup (read : Nat → List DraftedPlayer)
    (mets : Nat → Int × Int × Int) :
    ∀ fuel i prev acc, ((acc.map DraftedPlayer.name).Nodup) →
      (((draftedLoop read mets mergeDrafted fuel i prev acc).1.map
        DraftedPlayer.name)).Nodup := by
  intro fuel
  induction fuel with
  | zero => intro i prev acc h; exact h
  | succ fuel ih =>
      intro i prev acc h
      by_cases hs : stallB (mets i) prev
      · simp only [draftedLoop, hs, if_true]
        exact mergeDrafted_nodup (read i) acc h
      · simp only [draftedLoop, hs, if_false, Bool.false_eq_true]
        exact ih (i + 1) (mets i).1 _ (mergeDrafted_nodup (read i) acc h)

theorem yahooCurrent_fields (doc : Node) :
    ∀ q ∈ yahooCurrentDraftedNames doc,
      q.name ≠ "" ∧ q.position ≠ "" ∧ q.team ≠ "" := by
  intro q hq
  simp only [yahooCurrentDraftedNames, List.mem_filterMap] at hq
  obtain ⟨row, -, hrow⟩ := hq
  split at hrow
  · rename_i hcond
    cases hrow
    simp only [Bool.and_eq_true, bne_iff_ne, ne_eq] at hcond
    exact ⟨hcond.1.1, hcond.1.2, hcond.2⟩
  · exact absurd hrow (by simp)

theorem draftedLoop_stall_run {α : Type} (read : Nat → List α)
    (mets : Nat → Int × Int × Int) (merge : List α → List α → List α) (i : Nat)
    (hstall : dStall mets i = true)
    (hbefore : ∀ j, j < i → dStall mets j = false) :
    ∀ fuel s, s ≤ i → i < s + fuel →
      draftedLoop read mets merge fuel s (prevTopSeq mets s) (dAccum read merge s) =
        (dAccum read merge (i + 1), i + 1 - s) := by
  intro fuel
  induction fuel with
  | zero => intro s hs hlt; omega
  | succ fuel ih =>
      intro s hs hlt
      by_cases hsi : s = i
      · subst hsi
        have hstall' : stallB (mets s) (prevTopSeq mets s) = true := hstall
        simp only [draftedLoop, hstall', if_true]
        refine Prod.ext rfl ?_
        show (1 : Nat) = s + 1 - s
        omega
      · have hlt2 : s < i := lt_of_le_of_ne hs hsi
        have hns : stallB (mets s) (prevTopSeq mets s) = false := hbefore s hlt2
        simp only [draftedLoop, hns, if_false, Bool.false_eq_true]
        have e1 : draftedLoop read mets merge fuel (s + 1) (mets s).1
            (merge (dAccum read merge s) (read s)) =
            (dAccum read merge (i + 1), i + 1 - (s + 1)) :=
          ih (s + 1) (by omega) (by omega)
        rw [e1]
        refine Prod.ext rfl ?_
        show i + 1 - (s + 1) + 1 = i + 1 - s
        omega

/-- **C5.** In both drafted-panel parsers, when the panel is scrollable
and the post-scroll metrics first meet the exit test (bottom reached or
scroll offset unchanged from the previous iteration) at iteration `i`
(with `i` below the 100-attempt ceiling), the loop stops right there:
it runs exactly `i + 1` read iterations, returns the entries
accumulated over those reads, and issues the final scroll-to-top
reset. -/
theorem c5_stall_exit :
    (∀ (env : Nat → Node) (i : Nat),
      espnDraftedScrollable (env 0) = true →
      dStall (espnDraftedMets env (espnRosterPath (env 0))) i = true →
      (∀ j, j < i → dStall (espnDraftedMets env (espnRosterPath (env 0))) j = false) →
      i < maxAttempts →
      espnGetDraftedNamesFull env =
        (dAccum (espnDraftedReads env) mergeNames (i + 1), i + 1,
          espnDraftedReset env (2 * (i + 1) + 1))) ∧
    (∀ (env : Nat → Node) (i : Nat),
      yahooDraftedScrollable (env 0) = true →
      dStall (yahooDraftedMets env (yahooContainerPath (env 0))) i = true →
      (∀ j, j < i → dStall (yahooDraftedMets env (yahooContainerPath (env 0))) j = false) →
      i < maxAttempts →
      yahooGetDraftedNamesFull env =
        (dAccum (yahooDraftedReads env) mergeDrafted (i + 1), i + 1,
          yahooDraftedReset env (2 * (i + 1) + 1))) := by
  constructor
  · intro env i hs hstall hbefore hi
    rcases hcont : espnFindRoster (env 0) with _ | c
    · rw [espnDraftedScrollable, hcont] at hs
      exact absurd hs (by simp)
    · rw [espnDraftedScrollable, hcont] at hs
      rw [decide_eq_true_eq] at hs
      have hpath : espnRosterPath (env 0) = c.path := by
        rw [espnRosterPath, hcont]
      rw [hpath] at hstall hbefore
      have hrun : draftedLoop (espnDraftedReads env) (espnDraftedMets env c.path)
          mergeNames maxAttempts 0 (-1) [] =
          (dAccum (espnDraftedReads env) mergeNames (i + 1), i + 1 - 0) :=
        draftedLoop_stall_run (espnDraftedReads env) (espnDraftedMets env c.path)
          mergeNames i hstall hbefore maxAttempts 0 (Nat.zero_le i) (by omega)
      simp only [espnGetDraftedNamesFull, hcont, if_pos hs, hrun, Nat.sub_zero]
  · intro env i hs hstall hbefore hi
    rcases hcont : yahooFindContainer (env 0) with _ | c
    · rw [yahooDraftedScrollable, hcont] at hs
      exact absurd hs (by simp)
    · rw [yahooDraftedScrollable, hcont] at hs
      rw [decide_eq_true_eq] at hs
      have hpath : yahooContainerPath (env 0) = c.path := by
        rw [yahooContainerPath, hcont]
      rw [hpath] at hstall hbefore
      have hrun : draftedLoop (yahooDraftedReads env) (yahooDraftedMets env c.path)
          mergeDrafted maxAttempts 0 (-1) [] =
          (dAccum (yahooDraftedReads env) mergeDrafted (i + 1), i + 1 - 0) :=
        draftedLoop_stall_run (yahooDraftedReads env) (yahooDraftedMets env c.path)
          mergeDrafted i hstall hbefore maxAttempts 0 (Nat.zero_le i) (by omega)
      simp only [yahooGetDraftedNamesFull, hcont, if_pos hs, hrun, Nat.sub_zero]

/-- C5 witness: on constant pages whose drafted panel keeps scroll
offset 0 with content below the fold, the exit test first fires at
iteration 1, so both loops run exactly 2 read iterations and reset the
scroll. -/
theorem c5_stall_exit_witness :
    espnGetDraftedNamesFull (fun _ => espnDraftedDoc) =
      (dAccum (espnDraftedReads (fun _ => espnDraftedDoc)) mergeNames 2, 2,
        espnDraftedReset (fun _ => espnDraftedDoc) 5) ∧
    yahooGetDraftedNamesFull (fun _ => yahooDraftedScrollDoc) =
      (dAccum (yahooDraftedReads (fun _ => yahooDraftedScrollDoc)) mergeDrafted 2, 2,
        yahooDraftedReset (fun _ => yahooDraftedScrollDoc) 5) :=
  ⟨c5_stall_exit.1 (fun _ => espnDraftedDoc) 1 (by decide) (by decide) (by decide) (by decide),
    c5_stall_exit.2 (fun _ => yahooDraftedScrollDoc) 1 (by decide) (by decide) (by decide)
      (by decide)⟩

/-- **C10.** Every record Yahoo's `getDraftedNames` returns has
non-empty name, position and team; on the scrollable path the records
are de-duplicated by name alone, so the returned name fields are
pairwise distinct; but the non-scrollable path returns the visible
records as they stand, without that de-duplication. -/
theorem c10_drafted_dedup_by_name :
    ∀ (env : Nat → Node),
      (∀ q ∈ yahooGetDraftedNames env,
        q.name ≠ "" ∧ q.position ≠ "" ∧ q.team ≠ "") ∧
      (yahooDraftedScrollable (env 0) = true →
        ((yahooGetDraftedNames env).map DraftedPlayer.name).Nodup) ∧
      ((yahooFindContainer (env 0)).isSome →
        yahooDraftedScrollable (env 0) = false →
        yahooGetDraftedNames env = yahooCurrentDraftedNames (env 0)) := by
  intro env
  refine ⟨?_, ?_, ?_⟩
  · intro q hq
    rcases hcont : yahooFindContainer (env 0) with _ | c
    · simp [yahooGetDraftedNames, yahooGetDraftedNamesFull, hcont] at hq
    · by_cases hsc : c.data.clientHeight < c.data.scrollHeight
      · simp only [yahooGetDraftedNames, yahooGetDraftedNamesFull, hcont, if_pos hsc] at hq
        rcases draftedLoop_mem (yahooDraftedReads env) (yahooDraftedMets env c.path)
            maxAttempts 0 (-1) [] q hq with h' | ⟨j, hj⟩
        · exact absurd h' (List.not_mem_nil q)
        · exact yahooCurrent_fields _ q hj
      · simp only [yahooGetDraftedNames, yahooGetDraftedNamesFull, hcont, if_neg hsc] at hq
        exact yahooCurrent_fields _ q hq
  · intro hsc
    rcases hcont : yahooFindContainer (env 0) with _ | c
    · rw [yahooDraftedScrollable, hcont] at hsc
      exact absurd hsc (by simp)
    · rw [yahooDraftedScrollable, hcont, decide_eq_true_eq] at hsc
      simp only [yahooGetDraftedNames, yahooGetDraftedNamesFull, hcont, if_pos hsc]
      exact draftedLoop_nodup (yahooDraftedReads env) (yahooDraftedMets env c.path)
        maxAttempts 0 (-1) [] (by simp)
  · intro hsome hsc
    rcases hcont : yahooFindContainer (env 0) with _ | c
    · rw [hcont] at hsome
      exact absurd hsome (by simp)
    · rw [yahooDraftedScrollable, hcont, decide_eq_false_iff_not] at hsc
      simp only [yahooGetDraftedNames, yahooGetDraftedNamesFull, hcont, if_neg hsc]

/-- C10 counterexample: a non-scrollable drafted container showing two
filled rows that share the name A (with different teams and positions)
makes `getDraftedNames` return both records, so the name fields are not
pairwise distinct. -/
theorem c10_counterexample :
    yahooGetDraftedNames (fun _ => yahooDraftedDupDoc) =
      [⟨"A", "QB", "SF"⟩, ⟨"A", "WR", "KC"⟩] ∧
      ¬ ((yahooGetDraftedNames (fun _ => yahooDraftedDupDoc)).map
        DraftedPlayer.name).Nodup := by
  decide

/-- C10 witness: the three clauses of `c10_drafted_dedup_by_name` at
concrete pages. -/
theorem c10_dedup_witness :
    ((DraftedPlayer.mk "A" "QB" "SF").name ≠ "" ∧
      (DraftedPlayer.mk "A" "QB" "SF").position ≠ "" ∧
      (DraftedPlayer.mk "A" "QB" "SF").team ≠ "") ∧
    ((yahooGetDraftedNames (fun _ => yahooDraftedScrollDoc)).map
      DraftedPlayer.name).Nodup ∧
    yahooGetDraftedNames (fun _ => yahooDraftedDupDoc) =
      yahooCurrentDraftedNames yahooDraftedDupDoc :=
  ⟨(c10_drafted_dedup_by_name (fun _ => yahooDraftedDupDoc)).1 ⟨"A", "QB", "SF"⟩ (by decide),
    (c10_drafted_dedup_by_name (fun _ => yahooDraftedScrollDoc)).2.1 (by decide),
    (c10_drafted_dedup_by_name (fun _ => yahooDraftedDupDoc)).2.2 (by decide) (by decide)⟩

/-- **C8.** `getParserForUrl` returns the first parser in registration
order whose predicate accepts the URL, and `none` when no registered
predicate matches — in particular for `https://example.com/unrelated`
against the shipped registry — in which case the manager's
`getPlayerRows` returns no rows. -/
theorem c8_first_match_dispatch :
    (∀ (ps₁ ps₂ : List SiteParserE) (p : SiteParserE) (url : String),
      (∀ q ∈ ps₁, q.canParse url = false) → p.canParse url = true →
      getParserForUrl (ps₁ ++ p :: ps₂) url = some p) ∧
    (∀ (ps : List SiteParserE) (url : String),
      (∀ q ∈ ps, q.canParse url = false) → getParserForUrl ps url = none) ∧
    getParserForUrl registeredParsers "https://example.com/unrelated" = none ∧
    (∀ (url : String) (doc : Node), getParserForUrl registeredParsers url = none →
      parserManagerGetPlayerRows registeredParsers url doc = []) := by
  have part1 : ∀ (ps₁ ps₂ : List SiteParserE) (p : SiteParserE) (url : String),
      (∀ q ∈ ps₁, q.canParse url = false) → p.canParse url = true →
      getParserForUrl (ps₁ ++ p :: ps₂) url = some p := by
    intro ps₁
    induction ps₁ with
    | nil =>
        intro ps₂ p url _ hp
        simp [getParserForUrl, List.find?_cons_of_pos, hp]
    | cons q qs ih =>
        intro ps₂ p url hnone hp
        have hq : q.canParse url = false := hnone q (List.mem_cons_self _ _)
        rw [List.cons_append]
        show List.find? _ (q :: (qs ++ p :: ps₂)) = some p
        rw [List.find?_cons_of_neg _ (by simp [hq])]
        exact ih ps₂ p url (fun r hr => hnone r (List.mem_cons_of_mem _ hr)) hp
  have part2 : ∀ (ps : List SiteParserE) (url : String),
      (∀ q ∈ ps, q.canParse url = false) → getParserForUrl ps url = none := by
    intro ps
    induction ps with
    | nil => intro url _; rfl
    | cons q qs ih =>
        intro url hnone
        show List.find? _ (q :: qs) = none
        rw [List.find?_cons_of_neg _ (by simp [hnone q (List.mem_cons_self _ _)])]
        exact ih url (fun r hr => hnone r (List.mem_cons_of_mem _ hr))
  refine ⟨part1, part2, ?_, ?_⟩
  · apply part2
    intro q hq
    rcases List.mem_singleton.mp hq with rfl
    decide
  · intro url doc hnone
    rw [parserManagerGetPlayerRows, hnone]

/-- C8 witness: the first-match clause at the shipped registry and an
ESPN draft URL, and the no-match clause at the shipped registry. -/
theorem c8_first_matching_witness :
    getParserForUrl ([] ++ espnParserE :: []) "https://fantasy.espn.com/football/draft?x=1" =
      some espnParserE ∧
    parserManagerGetPlayerRows registeredParsers "https://example.com/unrelated"
      (Node.text "") = [] :=
  ⟨c8_first_match_dispatch.1 [] [] espnParserE "https://fantasy.espn.com/football/draft?x=1"
      (fun q hq => absurd hq (List.not_mem_nil q)) (by decide),
    c8_first_match_dispatch.2.2.2 "https://example.com/unrelated" (Node.text "") (by rfl)⟩

/-- **C9.** A missing anchor degrades the operation instead of failing
it: with no available-players container, `getPlayerRows` and
`getAvailableNames` return nothing; with no drafted panel,
`getDraftedNames` returns nothing and issues no scroll; with no
scrollbar face or track, the ESPN scroll primitives dispatch no
events. -/
theorem c9_missing_anchor_degrades :
    (∀ doc, q1 doc [cselCls "draft-rankings"] = none →
      sleeperGetPlayerRows doc = []) ∧
    (∀ doc, q1 doc [cselCls "draft-players"] = none →
      espnGetPlayerRows doc = []) ∧
    (∀ doc, q1 doc [cselCls "player-listing-table"] = none →
      yahooGetPlayerRows doc = []) ∧
    (∀ (env : Nat → Node) (k : Nat),
      (∀ t, q1 (env t) [cselCls "draft-rankings"] = none) →
      sleeperGetAvailableNames env k = []) ∧
    (∀ (env : Nat → Node) (k : Nat),
      (∀ t, q1 (env t) [cselCls "draft-players"] = none) →
      espnGetAvailableNames env k = []) ∧
    (∀ (env : Nat → Node) (k : Nat),
      q1 (env 0) [cselCls "player-listing-table"] = none →
      yahooGetAvailableNamesRun env k = ([], 0)) ∧
    (∀ env : Nat → Node, espnFindRoster (env 0) = none →
      espnGetDraftedNamesFull env = ([], 0, [])) ∧
    (∀ env : Nat → Node, yahooFindContainer (env 0) = none →
      yahooGetDraftedNamesFull env = ([], 0, [])) ∧
    (∀ doc, espnFindScrollbarFace doc = none →
      espnScrollToTopEvents doc = [] ∧ espnScrollDownEvents doc = []) ∧
    (∀ doc, espnFindScrollbar doc = none → espnScrollToTopEvents doc = []) := by
  refine ⟨?_, ?_, ?_, ?_, ?_, ?_, ?_, ?_, ?_, ?_⟩
  · intro doc h
    simp [sleeperGetPlayerRows, h]
  · intro doc h
    simp [espnGetPlayerRows, h]
  · intro doc h
    simp [yahooGetPlayerRows, h]
  · intro env k h
    obtain ⟨m, hm, heq⟩ := collectLoop_run (sleeperReads env) k maxAttempts 0 []
    show ((collectLoop (sleeperReads env) k maxAttempts 0 []).1).take k = []
    rw [heq]
    have hr : ∀ t, sleeperReads env t = [] := by
      intro t
      show sleeperCurrentNames (env t) = []
      have hrow : sleeperGetPlayerRows (env t) = [] := by
        simp [sleeperGetPlayerRows, h t]
      simp [sleeperCurrentNames, hrow]
    have hs : streamFrom (sleeperReads env) 0 m = [] := by
      simp [streamFrom, hr]
    simp [hs, mergeNames]
  · intro env k h
    obtain ⟨m, hm, heq⟩ := collectLoop_run (espnReads env) k maxAttempts 0 []
    show ((collectLoop (espnReads env) k maxAttempts 0 []).1).take k = []
    rw [heq]
    have hr : ∀ t, espnReads env t = [] := by
      intro t
      show espnCurrentNames (env t) = []
      have hrow : espnGetPlayerRows (env t) = [] := by
        simp [espnGetPlayerRows, h t]
      simp [espnCurrentNames, hrow]
    have hs : streamFrom (espnReads env) 0 m = [] := by
      simp [streamFrom, hr]
    simp [hs, mergeNames]
  · intro env k h
    simp [yahooGetAvailableNamesRun, h]
  · intro env h
    simp [espnGetDraftedNamesFull, h]
  · intro env h
    simp [yahooGetDraftedNamesFull, h]
  · intro doc h
    constructor
    · simp [espnScrollToTopEvents, h]
    · simp [espnScrollDownEvents, h]
  · intro doc h
    rcases hf : espnFindScrollbarFace doc with _ | face
    · simp [espnScrollToTopEvents, hf]
    · simp [espnScrollToTopEvents, hf, h]

/-- C9 witness: all ten clauses of `c9_missing_anchor_degrades` on a
page with none of the anchors. -/
theorem c9_missing_anchor_witness :
    sleeperGetPlayerRows emptyDoc = [] ∧
    espnGetPlayerRows emptyDoc = [] ∧
    yahooGetPlayerRows emptyDoc = [] ∧
    sleeperGetAvailableNames (fun _ => emptyDoc) 3 = [] ∧
    espnGetAvailableNames (fun _ => emptyDoc) 3 = [] ∧
    yahooGetAvailableNamesRun (fun _ => emptyDoc) 3 = ([], 0) ∧
    espnGetDraftedNamesFull (fun _ => emptyDoc) = ([], 0, []) ∧
    yahooGetDraftedNamesFull (fun _ => emptyDoc) = ([], 0, []) ∧
    (espnScrollToTopEvents emptyDoc = [] ∧ espnScrollDownEvents emptyDoc = []) ∧
    espnScrollToTopEvents emptyDoc = [] :=
  ⟨c9_missing_anchor_degrades.1 emptyDoc rfl,
    c9_missing_anchor_degrades.2.1 emptyDoc rfl,
    c9_missing_anchor_degrades.2.2.1 emptyDoc rfl,
    c9_missing_anchor_degrades.2.2.2.1 (fun _ => emptyDoc) 3 (fun _ => rfl),
    c9_missing_anchor_degrades.2.2.2.2.1 (fun _ => emptyDoc) 3 (fun _ => rfl),
    c9_missing_anchor_degrades.2.2.2.2.2.1 (fun _ => emptyDoc) 3 rfl,
    c9_missing_anchor_degrades.2.2.2.2.2.2.1 (fun _ => emptyDoc) rfl,
    c9_missing_anchor_degrades.2.2.2.2.2.2.2.1 (fun _ => emptyDoc) rfl,
    c9_missing_anchor_degrades.2.2.2.2.2.2.2.2.1 emptyDoc rfl,
    c9_missing_anchor_degrades.2.2.2.2.2.2.2.2.2 emptyDoc rfl⟩
